import Mathlib

set_option maxHeartbeats 1000000

/-!
Verification development for the HTMLManager repository (`src/main.py`).

The BeautifulSoup DOM tree is modelled as a tree of element and text nodes
(`Node`); a parsed document is the list of top-level nodes of the soup
(`Doc`).  Each rule of `Cleaner` is embedded as the corresponding recursive
tree transformation, `Cleaner.clean` as their flag-guarded sequence in source
order, and `HTMLProcessor` as a state transformer over the tree and the
output directory (a list of written `(name, content)` pairs).  The external
collaborators (the DOM parser and the trafilatura extractor) are kept
abstract, as the spec treats them (§6).
-/

/-- A DOM node: an element with a tag name, an ordered attribute list and an
ordered child list, or a text node. -/
inductive Node where
  | elem : String → List (String × String) → List Node → Node
  | text : String → Node

/-- A parsed document: the top-level node sequence of the soup. -/
abbrev Doc := List Node

/-- Tag test, as `find_all(tag)` matches elements. -/
def isTag (t : String) : Node → Bool
  | .elem t' _ _ => t' = t
  | .text _ => false

mutual

/-- Concatenated raw text content of a node, in document order. -/
def textN : Node → List Char
  | .text s => s.data
  | .elem _ _ c => textL c

/-- Concatenated raw text content of a node list. -/
def textL : List Node → List Char
  | [] => []
  | n :: ns => textN n ++ textL ns

end

/-- Python `str.strip` whitespace (the ASCII fragment). -/
def isWsChar (c : Char) : Bool :=
  c = ' ' || c = '\t' || c = '\n' || c = '\r' || c = '\x0b' || c = '\x0c'

/-- Character content with no non-whitespace character: `get_text(strip=True)`
is falsy on a node exactly when its text is such. -/
def allWs (cs : List Char) : Bool := cs.all isWsChar

mutual

/-- Does any node of the subtree (the node itself included) satisfy `p`? -/
def anyNodeN (p : Node → Bool) : Node → Bool
  | .text s => p (.text s)
  | .elem t a c => p (.elem t a c) || anyNodeL p c

/-- Does any node under one of the listed nodes satisfy `p`? -/
def anyNodeL (p : Node → Bool) : List Node → Bool
  | [] => false
  | n :: ns => anyNodeN p n || anyNodeL p ns

end

mutual

/-- Remove (`decompose`) every element on which `p` holds; `p` is evaluated on
an element together with its original subtree, and the children of kept
elements are processed recursively — exactly the effect of the source's
`find_all` snapshot traversed in document order. -/
def filterOutN (p : Node → Bool) : Node → List Node
  | .text s => [.text s]
  | .elem t a c => if p (.elem t a c) then [] else [.elem t a (filterOutL p c)]

/-- `filterOutN` over a node list. -/
def filterOutL (p : Node → Bool) : List Node → List Node
  | [] => []
  | n :: ns => filterOutN p n ++ filterOutL p ns

end

mutual

/-- Delete attribute `k` from every element, as `del tag[k]` over a
`find_all` of the carriers. -/
def delAttrN (k : String) : Node → Node
  | .text s => .text s
  | .elem t a c => .elem t (a.filter (fun kv => kv.1 ≠ k)) (delAttrL k c)

/-- `delAttrN` over a node list. -/
def delAttrL (k : String) : List Node → List Node
  | [] => []
  | n :: ns => delAttrN k n :: delAttrL k ns

end

mutual

/-- Unwrap (`tag.unwrap()`) every element with the given tag: its processed
children replace it in the parent's child list. -/
def unwrapN (tag : String) : Node → List Node
  | .text s => [.text s]
  | .elem t a c => if t = tag then unwrapL tag c else [.elem t a (unwrapL tag c)]

/-- `unwrapN` over a node list. -/
def unwrapL (tag : String) : List Node → List Node
  | [] => []
  | n :: ns => unwrapN tag n ++ unwrapL tag ns

end

mutual

/-- `Cleaner.wrap_paragraph_with_div`, on one node: every `p` element with an
`img` descendant is wrapped in a fresh `div` with `class="exercise"`; the
image itself is not touched here. -/
def wrapN : Node → Node
  | .text s => .text s
  | .elem t a c =>
    if t = "p" && anyNodeL (isTag "img") c then
      .elem "div" [("class", "exercise")] [.elem t a (wrapL c)]
    else .elem t a (wrapL c)

/-- `wrapN` over a node list. -/
def wrapL : List Node → List Node
  | [] => []
  | n :: ns => wrapN n :: wrapL ns

end

mutual

/-- All `table` elements of a subtree with their (original) subtrees, in
document order, as `find_all("table")` returns them. -/
def tablesN : Node → List Node
  | .text _ => []
  | .elem t a c => (if t = "table" then [Node.elem t a c] else []) ++ tablesL c

/-- `tablesN` over a node list. -/
def tablesL : List Node → List Node
  | [] => []
  | n :: ns => tablesN n ++ tablesL ns

end

mutual

/-- Serialization of one node, as `str(tag)` renders it. -/
def serializeN : Node → String
  | .text s => s
  | .elem t a c =>
    "<" ++ t ++ String.join (a.map (fun kv => " " ++ kv.1 ++ "=\x22" ++ kv.2 ++ "\x22")) ++ ">"
      ++ serializeL c ++ "</" ++ t ++ ">"

/-- Serialization of a node list, as `str(soup)` concatenates children. -/
def serializeL : List Node → String
  | [] => ""
  | n :: ns => serializeN n ++ serializeL ns

end

/-- Element test for an `img` tag. -/
def isImg : Node → Bool := isTag "img"

/-- Element test for a `table` tag. -/
def isTable : Node → Bool := isTag "table"

/-- The predicate of `Cleaner.clean_empty_tables`: a `table` none of whose
descendants has non-whitespace text content. -/
def isEmptyTable : Node → Bool
  | .elem t _ c => t = "table" && allWs (textL c)
  | .text _ => false

/-- `Cleaner.remove_lang_attributes`. -/
def remove_lang_attributes (d : Doc) : Doc := delAttrL "lang" d

/-- `Cleaner.remove_spans_tags`. -/
def remove_spans_tags (d : Doc) : Doc := unwrapL "span" d

/-- `Cleaner.remove_imgs_tags`. -/
def remove_imgs_tags (d : Doc) : Doc := filterOutL isImg d

/-- `Cleaner.wrap_paragraph_with_div`. -/
def wrap_paragraph_with_div (d : Doc) : Doc := wrapL d

/-- `Cleaner.clean_empty_tables`. -/
def clean_empty_tables (d : Doc) : Doc := filterOutL isEmptyTable d

/-- The five toggles of `Cleaner.clean`, in the order of its signature. -/
structure CleanFlags where
  remove_lang : Bool
  remove_spans : Bool
  remove_imgs : Bool
  clean_empty_tables : Bool
  wrap_images : Bool

/-- The defaults of `Cleaner.clean`: every rule enabled. -/
def defaultFlags : CleanFlags := ⟨true, true, true, true, true⟩

/-- `Cleaner.clean`: the flag-guarded rule sequence, in source order. -/
def clean (f : CleanFlags) (d : Doc) : Doc :=
  let d1 := if f.remove_lang then remove_lang_attributes d else d
  let d2 := if f.clean_empty_tables then clean_empty_tables d1 else d1
  let d3 := if f.wrap_images then wrap_paragraph_with_div d2 else d2
  let d4 := if f.remove_spans then remove_spans_tags d3 else d3
  let d5 := if f.remove_imgs then remove_imgs_tags d4 else d4
  d5

/-- Modelled from the spec: `remove_all_divs` (spec §4.1 rule 1) — unwrap
every `div`; this rule does not exist in `src/main.py`. -/
def remove_all_divs (d : Doc) : Doc := unwrapL "div" d

/-- Modelled from the spec: the predicate of `clean_empty_colgroups`
(spec §4.1 rule 4) — a `colgroup` with zero `col` children; the rule does not
exist in `src/main.py`. -/
def isEmptyColgroup : Node → Bool
  | .elem t _ c => t = "colgroup" && !(c.any (isTag "col"))
  | .text _ => false

/-- Modelled from the spec: `clean_empty_colgroups` (spec §4.1 rule 4); not in
`src/main.py`. -/
def clean_empty_colgroups (d : Doc) : Doc := filterOutL isEmptyColgroup d

/-- Modelled from the spec: `remove_all_classes` / `remove_all_ids`
(spec §4.1 rule 5); neither rule exists in `src/main.py`. -/
def remove_all_classes_ids (d : Doc) : Doc := delAttrL "id" (delAttrL "class" d)

/-- Modelled from the spec: the predicate of `remove_answers` (spec §4.1
rule 9) — a `p` whose trimmed text begins with one of the two boilerplate
tokens of the source locale; the rule does not exist in `src/main.py`. -/
def isAnswerP : Node → Bool
  | .elem t _ c =>
    t = "p" && (List.isPrefixOf "Resposta".data ((textL c).dropWhile isWsChar)
      || List.isPrefixOf "Respostas".data ((textL c).dropWhile isWsChar))
  | .text _ => false

/-- Modelled from the spec: `remove_answers` (spec §4.1 rule 9); not in
`src/main.py`. -/
def remove_answers (d : Doc) : Doc := filterOutL isAnswerP d

/-- Modelled from the spec: the predicate of `remove_empty_tags` (spec §4.1
rule 10) — an element whose trimmed recursive text content is empty; the rule
does not exist in `src/main.py`. -/
def isEmptyElem : Node → Bool
  | .elem _ _ c => allWs (textL c)
  | .text _ => false

/-- Modelled from the spec: `remove_empty_tags` (spec §4.1 rule 10); not in
`src/main.py`. -/
def remove_empty_tags (d : Doc) : Doc := filterOutL isEmptyElem d

/-- Modelled from the spec: the full ten-rule pipeline that the spec's
ordering contract describes, every rule enabled, in the spec's order
(div-unwrap, lang removal, empty tables, empty colgroups, class/id removal,
image wrap, span unwrap, image removal, answer removal, empty-tag sweep). -/
def specTenRulePipeline (d : Doc) : Doc :=
  remove_empty_tags (remove_answers (remove_imgs_tags (remove_spans_tags
    (wrap_paragraph_with_div (remove_all_classes_ids (clean_empty_colgroups
      (clean_empty_tables (remove_lang_attributes (remove_all_divs d)))))))))

/-- Decimal digits of `n`, most significant first, with explicit fuel (the
value itself bounds the number of division steps). -/
def decDigitsAux : Nat → Nat → List Char
  | 0, _ => []
  | fuel + 1, n =>
    if n < 10 then [Nat.digitChar n]
    else decDigitsAux fuel (n / 10) ++ [Nat.digitChar (n % 10)]

/-- Decimal digit characters of `n`. -/
def decDigits (n : Nat) : List Char := decDigitsAux (n + 1) n

/-- Decimal rendering of a natural number, as the f-string interpolation of
the source renders `index`. -/
def natToDec (n : Nat) : String := ⟨decDigits n⟩

/-- The artifact name `f"{base_name}-{index}{extension}"` with the `.html`
extension used by every write of the source. -/
def mkName (base : String) (n : Nat) : String := base ++ "-" ++ natToDec n ++ ".html"

/-- One existence-probe loop `for index in count(1)` of the source, with
explicit fuel; `smallestFree` supplies fuel that provably suffices, so this
equals the source's unbounded scan. -/
def smallestFreeAux (base : String) (names : List String) : Nat → Nat → Nat
  | 0, i => i
  | fuel + 1, i =>
    if names.contains (mkName base i) then smallestFreeAux base names fuel (i + 1) else i

/-- The first index `i ≥ 1` whose artifact name is not taken. -/
def smallestFree (base : String) (names : List String) : Nat :=
  smallestFreeAux base names (names.length + 1) 1

/-- The output directory `FILES`: the files it holds, as `(name, content)`
pairs in order of creation. -/
abbrev OutDir := List (String × String)

/-- The file names present in the output directory. -/
def outNames (out : OutDir) : List String := out.map (fun e => e.1)

/-- `HTMLProcessor._generate_unique_file_path` (and the identical probe loops
inlined in `save_processed_file` and `save_only_content`). -/
def generate_unique_file_path (base : String) (out : OutDir) : String :=
  mkName base (smallestFree base (outNames out))

/-- The state `HTMLProcessor` carries: the parsed tree (`self.file`, to which
`self.cleaner` is bound) and the extracted content (`self.content_html`). -/
structure HTMLProcessor where
  file : Doc
  content_html : String

/-- The construction-time failures of `HTMLProcessor.__init__`. -/
inductive ConstructError where
  | notFound
  | invalidFormat
  | parseFailed
  | extractionFailed
deriving DecidableEq

/-- Modelled from the spec: the external collaborators of §6 — the DOM parser
(BeautifulSoup) and the readable-content extractor (trafilatura); neither is
part of this repository, so they stay abstract. -/
structure Collaborators where
  parse : String → Doc
  extract : String → Option String

/-- Last path component, as `Path.name`. -/
def lastComponent (p : String) : List Char :=
  (p.data.reverse.takeWhile (fun c => c ≠ '/')).reverse

/-- Python `Path.suffix`: the final extension with its dot; empty when the
name has no dot, when its only dot is leading, or when the dot is last. -/
def pathSuffix (p : String) : String :=
  let name := lastComponent p
  match name.reverse.findIdx? (fun c => c = '.') with
  | none => ""
  | some k =>
    if k = 0 || k = name.length - 1 then ""
    else ⟨'.' :: (name.reverse.take k).reverse⟩

/-- One lowercased character (Python `str.lower`, ASCII fragment). -/
def lowerChar (c : Char) : Char :=
  if 'A' ≤ c && c ≤ 'Z' then Char.ofNat (c.toNat + 32) else c

/-- Python `str.lower` (ASCII fragment). -/
def strLower (s : String) : String := ⟨s.data.map lowerChar⟩

/-- The input filesystem: paths mapped to raw file contents. -/
abbrev InputFS := List (String × String)

/-- Reading the file at a path, `None` when it does not exist. -/
def readFile (fs : InputFS) (p : String) : Option String :=
  (fs.find? (fun e => e.1 = p)).map (fun e => e.2)

/-- `HTMLProcessor.__init__`: `parse_html` (which runs `validate_file` —
existence first, extension second — then parses and applies the
`if not soup` check), then `extract_content_trafilatura` on the same raw
bytes; on success the tree and the extracted content are bound. -/
def construct (C : Collaborators) (fs : InputFS) (path : String) :
    Except ConstructError HTMLProcessor :=
  match readFile fs path with
  | none => .error .notFound
  | some raw =>
    if strLower (pathSuffix path) ≠ ".html" then .error .invalidFormat
    else
      let doc := C.parse raw
      if doc.isEmpty then .error .parseFailed
      else
        match C.extract raw with
        | some s => .ok ⟨doc, s⟩
        | none => .error .extractionFailed

/-- `HTMLProcessor.save_only_content`. -/
def save_only_content (p : HTMLProcessor) (out : OutDir) : OutDir :=
  out ++ [(generate_unique_file_path "content" out, p.content_html)]

/-- `HTMLProcessor.save_processed_file`. -/
def save_processed_file (p : HTMLProcessor) (out : OutDir) : OutDir :=
  out ++ [(generate_unique_file_path "file" out, serializeL p.file)]

/-- `HTMLProcessor.remove_all_tables`: decompose every found `table`. -/
def remove_all_tables (d : Doc) : Doc := filterOutL isTable d

/-- `HTMLProcessor._get_tables_content`: serialized tables joined by a
newline. -/
def get_tables_content (tables : List Node) : String :=
  String.intercalate "\n" (tables.map serializeN)

/-- `HTMLProcessor.separate_all_tables`: purge empty tables, collect the
remaining tables, persist their joined serialization when any exist, and
decompose them from the main tree.  Re-parsing the joined string through the
external parser and serializing the result again is modelled as the identity
roundtrip on the serialized fragment (spec §6 collaborator interface). -/
def separate_all_tables (p : HTMLProcessor) (out : OutDir) : HTMLProcessor × OutDir :=
  let f1 := clean_empty_tables p.file
  let ts := tablesL f1
  if ts.isEmpty then ({ p with file := f1 }, out)
  else
    ({ p with file := remove_all_tables f1 },
     out ++ [(generate_unique_file_path "tables" out, get_tables_content ts)])

/-- The options bag of `HTMLProcessor.process`. -/
structure ProcessOptions where
  remove_tables : Bool
  separate_tables : Bool
  separate_content : Bool
  wrap_images : Bool

/-- `HTMLProcessor.process`: clean (defaults except `wrap_images`), then the
optional content save, the optional table separation, the optional table
removal — two independent conditionals in the source — and finally the
primary artifact. -/
def process (o : ProcessOptions) (p : HTMLProcessor) (out : OutDir) :
    HTMLProcessor × OutDir :=
  let p1 := { p with file := clean ⟨true, true, true, true, o.wrap_images⟩ p.file }
  let out1 := if o.separate_content then save_only_content p1 out else out
  let r2 := if o.separate_tables then separate_all_tables p1 out1 else (p1, out1)
  let p3 := if o.remove_tables then { r2.1 with file := remove_all_tables r2.1.file } else r2.1
  (p3, save_processed_file p3 r2.2)

/-- Modelled from the spec: `Process(options)` as §4.2 words it — the
pipeline with `wrapImages` forwarded, then content persistence, then table
separation, **else** (mutually exclusively) table removal, then the primary
artifact. -/
def processSpec (o : ProcessOptions) (p : HTMLProcessor) (out : OutDir) :
    HTMLProcessor × OutDir :=
  let p1 := { p with file := clean ⟨true, true, true, true, o.wrap_images⟩ p.file }
  let out1 := if o.separate_content then save_only_content p1 out else out
  let r2 :=
    if o.separate_tables then separate_all_tables p1 out1
    else if o.remove_tables then ({ p1 with file := remove_all_tables p1.file }, out1)
    else (p1, out1)
  (r2.1, save_processed_file r2.1 r2.2)

/-- A full invocation: construct, then on success process; on a construction
failure nothing is ever written. -/
def runTool (C : Collaborators) (fs : InputFS) (path : String) (o : ProcessOptions)
    (out : OutDir) : Except ConstructError Unit × OutDir :=
  match construct C fs path with
  | .error e => (.error e, out)
  | .ok p => (.ok (), (process o p out).2)

/-- Attribute-key test: does the element carry attribute `k`? -/
def hasKey (k : String) : Node → Bool
  | .elem _ a _ => a.any (fun kv => kv.1 = k)
  | .text _ => false

/-- An element that is a `div` carrying `class="exercise"` — the wrapper the
image-wrap rule creates. -/
def isExDiv : Node → Bool
  | .elem t a _ => t = "div" && a.any (fun kv => kv.1 = "class" && kv.2 = "exercise")
  | .text _ => false

/-- A `p` element with an `img` descendant — the image-wrap predicate. -/
def isPImg : Node → Bool
  | .elem t _ c => t = "p" && anyNodeL (isTag "img") c
  | .text _ => false

/-- An exercise `div` with a `p` among its direct children — a wrapped
paragraph. -/
def isExDivP : Node → Bool
  | .elem t a c =>
    t = "div" && a.any (fun kv => kv.1 = "class" && kv.2 = "exercise") && c.any (isTag "p")
  | .text _ => false

/-- An `img` element that has children — never produced by an HTML parser,
where `img` is a void element. -/
def imgNonVoid : Node → Bool
  | .elem t _ c => t = "img" && !c.isEmpty
  | .text _ => false

/-- A predicate that looks only at the tag and attributes of an element,
never at its children. -/
def LocalPred (q : Node → Bool) : Prop :=
  ∀ t a c c', q (.elem t a c) = q (.elem t a c')

/-- Decimal value of a digit string (left inverse of `decDigits`). -/
def decVal (cs : List Char) : Nat := cs.foldl (fun v c => 10 * v + (c.toNat - 48)) 0

/-- One flag-guarded pipeline stage. -/
def applyIf (b : Bool) (g : Doc → Doc) (d : Doc) : Doc := if b then g d else d

/-- Modelled from the spec (as amended by the code): the five-rule pipeline
`Cleaner.clean` actually runs — lang removal, empty-table removal, image
wrap, span unwrap, image removal — each stage guarded by its flag, in this
fixed order. -/
def specFiveRulePipeline (f : CleanFlags) (d : Doc) : Doc :=
  applyIf f.remove_imgs remove_imgs_tags
    (applyIf f.remove_spans remove_spans_tags
      (applyIf f.wrap_images wrap_paragraph_with_div
        (applyIf f.clean_empty_tables clean_empty_tables
          (applyIf f.remove_lang remove_lang_attributes d))))

/-- Strong induction on a node: the children of an element are reached
through list membership. -/
theorem node_ind {P : Node → Prop}
    (ht : ∀ s, P (.text s))
    (he : ∀ t a c, (∀ n ∈ c, P n) → P (.elem t a c)) : ∀ n, P n
  | .text s => ht s
  | .elem t a c => he t a c (fun n _ => node_ind ht he n)
decreasing_by
  have := List.sizeOf_lt_of_mem (by assumption : n ∈ c)
  simp only [Node.elem.sizeOf_spec]
  omega

theorem delAttrL_eq_map (k : String) (l : List Node) :
    delAttrL k l = l.map (delAttrN k) := by
  induction l with
  | nil => rfl
  | cons n ns ih => simp [delAttrL, ih]

theorem wrapL_eq_map (l : List Node) : wrapL l = l.map wrapN := by
  induction l with
  | nil => rfl
  | cons n ns ih => simp [wrapL, ih]

theorem unwrapL_eq_flatMap (tag : String) (l : List Node) :
    unwrapL tag l = l.flatMap (unwrapN tag) := by
  induction l with
  | nil => rfl
  | cons n ns ih => simp [unwrapL, ih]

theorem filterOutL_eq_flatMap (p : Node → Bool) (l : List Node) :
    filterOutL p l = l.flatMap (filterOutN p) := by
  induction l with
  | nil => rfl
  | cons n ns ih => simp [filterOutL, ih]

theorem textL_eq_flatMap (l : List Node) : textL l = l.flatMap textN := by
  induction l with
  | nil => rfl
  | cons n ns ih => simp [textL, ih]

theorem tablesL_eq_flatMap (l : List Node) : tablesL l = l.flatMap tablesN := by
  induction l with
  | nil => rfl
  | cons n ns ih => simp [tablesL, ih]

theorem anyNodeL_eq_any (p : Node → Bool) (l : List Node) :
    anyNodeL p l = l.any (anyNodeN p) := by
  induction l with
  | nil => rfl
  | cons n ns ih => simp [anyNodeL, ih]

theorem anyNodeL_false_iff (p : Node → Bool) (l : List Node) :
    anyNodeL p l = false ↔ ∀ n ∈ l, anyNodeN p n = false := by
  rw [anyNodeL_eq_any]
  simp

theorem listFlatMapCongr {α : Type} (g h : Node → List α) (l : List Node)
    (hgh : ∀ n ∈ l, g n = h n) : l.flatMap g = l.flatMap h := by
  induction l with
  | nil => rfl
  | cons n ns ih =>
    simp only [List.flatMap_cons]
    rw [hgh n (by simp), ih (fun m hm => hgh m (by simp [hm]))]

theorem filterOutN_id_of_no (p : Node → Bool) :
    ∀ n, anyNodeN p n = false → filterOutN p n = [n] := by
  intro n
  induction n using node_ind with
  | ht s =>
    intro h
    simp only [anyNodeN] at h
    simp [filterOutN, h]
  | he t a c ih =>
    intro h
    simp only [anyNodeN, Bool.or_eq_false_iff] at h
    obtain ⟨h1, h2⟩ := h
    rw [anyNodeL_false_iff] at h2
    simp only [filterOutN, h1, if_false, Bool.false_eq_true]
    rw [filterOutL_eq_flatMap, listFlatMapCongr _ (fun n => [n]) c
      (fun m hm => ih m hm (h2 m hm))]
    simp

theorem filterOutL_id_of_no (p : Node → Bool) (l : List Node)
    (h : anyNodeL p l = false) : filterOutL p l = l := by
  rw [anyNodeL_false_iff] at h
  rw [filterOutL_eq_flatMap, listFlatMapCongr _ (fun n => [n]) l
    (fun m hm => filterOutN_id_of_no p m (h m hm))]
  simp

theorem unwrapN_id_of_no (tag : String) :
    ∀ n, anyNodeN (isTag tag) n = false → unwrapN tag n = [n] := by
  intro n
  induction n using node_ind with
  | ht s => intro _; rfl
  | he t a c ih =>
    intro h
    simp only [anyNodeN, Bool.or_eq_false_iff] at h
    obtain ⟨h1, h2⟩ := h
    rw [anyNodeL_false_iff] at h2
    simp only [isTag] at h1
    simp only [unwrapN, h1, if_false]
    rw [decide_eq_false_iff_not] at h1
    simp only [h1, if_false]
    rw [unwrapL_eq_flatMap, listFlatMapCongr _ (fun n => [n]) c
      (fun m hm => ih m hm (h2 m hm))]
    simp

theorem unwrapL_id_of_no (tag : String) (l : List Node)
    (h : anyNodeL (isTag tag) l = false) : unwrapL tag l = l := by
  rw [anyNodeL_false_iff] at h
  rw [unwrapL_eq_flatMap, listFlatMapCongr _ (fun n => [n]) l
    (fun m hm => unwrapN_id_of_no tag m (h m hm))]
  simp

theorem delAttrN_id_of_no (k : String) :
    ∀ n, anyNodeN (hasKey k) n = false → delAttrN k n = n := by
  intro n
  induction n using node_ind with
  | ht s => intro _; rfl
  | he t a c ih =>
    intro h
    simp only [anyNodeN, Bool.or_eq_false_iff] at h
    obtain ⟨h1, h2⟩ := h
    rw [anyNodeL_false_iff] at h2
    simp only [hasKey, List.any_eq_false] at h1
    simp only [delAttrN, Node.elem.injEq, true_and]
    constructor
    · rw [List.filter_eq_self]
      intro kv hkv
      simpa using h1 kv hkv
    · rw [delAttrL_eq_map, List.map_congr_left (fun m hm => ih m hm (h2 m hm))]
      simp

theorem delAttrL_id_of_no (k : String) (l : List Node)
    (h : anyNodeL (hasKey k) l = false) : delAttrL k l = l := by
  rw [anyNodeL_false_iff] at h
  rw [delAttrL_eq_map, List.map_congr_left
    (fun m hm => delAttrN_id_of_no k m (h m hm))]
  simp

theorem wrapN_id_of_no_img :
    ∀ n, anyNodeN (isTag "img") n = false → wrapN n = n := by
  intro n
  induction n using node_ind with
  | ht s => intro _; rfl
  | he t a c ih =>
    intro h
    simp only [anyNodeN, Bool.or_eq_false_iff] at h
    obtain ⟨h1, h2⟩ := h
    have h2' := h2
    rw [anyNodeL_false_iff] at h2'
    simp only [wrapN, h2, Bool.and_false, if_false, Node.elem.injEq, true_and, Bool.false_eq_true]
    rw [wrapL_eq_map, List.map_congr_left (fun m hm => ih m hm (h2' m hm))]
    simp

theorem wrapL_id_of_no_img (l : List Node)
    (h : anyNodeL (isTag "img") l = false) : wrapL l = l := by
  have h' := h
  rw [anyNodeL_false_iff] at h'
  rw [wrapL_eq_map, List.map_congr_left
    (fun m hm => wrapN_id_of_no_img m (h' m hm))]
  simp

theorem isTag_local (t : String) : LocalPred (isTag t) := by
  intro t' a c c'; rfl

theorem hasKey_local (k : String) : LocalPred (hasKey k) := by
  intro t a c c'; rfl

theorem isExDiv_local : LocalPred isExDiv := by
  intro t a c c'; rfl

theorem anyNodeL_append (p : Node → Bool) (a b : List Node) :
    anyNodeL p (a ++ b) = (anyNodeL p a || anyNodeL p b) := by
  simp [anyNodeL_eq_any]

theorem anyNodeL_flatMap_false (p : Node → Bool) (g : Node → List Node) (l : List Node)
    (h : ∀ n ∈ l, anyNodeL p (g n) = false) : anyNodeL p (l.flatMap g) = false := by
  induction l with
  | nil => rfl
  | cons n ns ih =>
    simp only [List.flatMap_cons, anyNodeL_append, h n (by simp),
      ih (fun m hm => h m (by simp [hm])), Bool.or_self]

theorem anyNodeL_true_of_mem (p : Node → Bool) (l : List Node) (x : Node)
    (hx : x ∈ l) (h : anyNodeN p x = true) : anyNodeL p l = true := by
  rw [anyNodeL_eq_any]
  exact List.any_of_mem hx h

theorem anyNodeL_map_congr (p : Node → Bool) (f : Node → Node) (l : List Node)
    (h : ∀ x ∈ l, anyNodeN p (f x) = anyNodeN p x) :
    anyNodeL p (l.map f) = anyNodeL p l := by
  induction l with
  | nil => rfl
  | cons n ns ih =>
    simp only [List.map_cons, anyNodeL, h n (by simp), ih (fun m hm => h m (by simp [hm]))]

/-- Local predicates that fail on every node of a tree keep failing after any
`filterOut` pass. -/
theorem localFalse_filterOutN (q p : Node → Bool) (hq : LocalPred q) :
    ∀ n, anyNodeN q n = false → anyNodeL q (filterOutN p n) = false := by
  intro n
  induction n using node_ind with
  | ht s =>
    intro h
    simp only [anyNodeN] at h
    simp [filterOutN, anyNodeL, anyNodeN, h]
  | he t a c ih =>
    intro h
    simp only [anyNodeN, Bool.or_eq_false_iff] at h
    obtain ⟨h1, h2⟩ := h
    have h2' := (anyNodeL_false_iff q c).mp h2
    by_cases hp : p (.elem t a c) = true
    · simp [filterOutN, hp, anyNodeL]
    · simp only [filterOutN, hp, if_false, Bool.false_eq_true]
      simp only [anyNodeL, anyNodeN, Bool.or_false, Bool.or_eq_false_iff]
      refine ⟨?_, ?_⟩
      · rw [hq t a (filterOutL p c) c]
        exact h1
      · rw [filterOutL_eq_flatMap]
        exact anyNodeL_flatMap_false q _ c (fun m hm => ih m hm (h2' m hm))

theorem localFalse_filterOutL (q p : Node → Bool) (hq : LocalPred q) (l : List Node)
    (h : anyNodeL q l = false) : anyNodeL q (filterOutL p l) = false := by
  have h' := (anyNodeL_false_iff q l).mp h
  rw [filterOutL_eq_flatMap]
  exact anyNodeL_flatMap_false q _ l (fun m hm => localFalse_filterOutN q p hq m (h' m hm))

/-- Local predicates that fail everywhere keep failing after an unwrap pass. -/
theorem localFalse_unwrapN (q : Node → Bool) (tag : String) (hq : LocalPred q) :
    ∀ n, anyNodeN q n = false → anyNodeL q (unwrapN tag n) = false := by
  intro n
  induction n using node_ind with
  | ht s =>
    intro h
    simp only [anyNodeN] at h
    simp [unwrapN, anyNodeL, anyNodeN, h]
  | he t a c ih =>
    intro h
    simp only [anyNodeN, Bool.or_eq_false_iff] at h
    obtain ⟨h1, h2⟩ := h
    have h2' := (anyNodeL_false_iff q c).mp h2
    have hc : anyNodeL q (unwrapL tag c) = false := by
      rw [unwrapL_eq_flatMap]
      exact anyNodeL_flatMap_false q _ c (fun m hm => ih m hm (h2' m hm))
    by_cases ht' : t = tag
    · simp [unwrapN, ht', hc]
    · simp only [unwrapN, ht', if_false]
      simp only [anyNodeL, anyNodeN, Bool.or_false, Bool.or_eq_false_iff]
      refine ⟨?_, hc⟩
      rw [hq t a (unwrapL tag c) c]
      exact h1

theorem localFalse_unwrapL (q : Node → Bool) (tag : String) (hq : LocalPred q) (l : List Node)
    (h : anyNodeL q l = false) : anyNodeL q (unwrapL tag l) = false := by
  have h' := (anyNodeL_false_iff q l).mp h
  rw [unwrapL_eq_flatMap]
  exact anyNodeL_flatMap_false q _ l (fun m hm => localFalse_unwrapN q tag hq m (h' m hm))

/-- Local predicates that fail everywhere and fail on the exercise wrapper
keep failing after the wrap pass. -/
theorem localFalse_wrapN (q : Node → Bool) (hq : LocalPred q)
    (hdiv : q (.elem "div" [("class", "exercise")] []) = false) :
    ∀ n, anyNodeN q n = false → anyNodeN q (wrapN n) = false := by
  intro n
  induction n using node_ind with
  | ht s =>
    intro h
    simpa [wrapN] using h
  | he t a c ih =>
    intro h
    simp only [anyNodeN, Bool.or_eq_false_iff] at h
    obtain ⟨h1, h2⟩ := h
    have h2' := (anyNodeL_false_iff q c).mp h2
    have hc : anyNodeL q (wrapL c) = false := by
      rw [wrapL_eq_map, anyNodeL_eq_any, List.any_eq_false]
      intro x hx
      obtain ⟨y, hy, rfl⟩ := List.mem_map.mp hx
      simp [ih y hy (h2' y hy)]
    have hkept : anyNodeN q (.elem t a (wrapL c)) = false := by
      simp only [anyNodeN, Bool.or_eq_false_iff]
      refine ⟨?_, hc⟩
      rw [hq t a (wrapL c) c]
      exact h1
    by_cases hw : (t = "p" && anyNodeL (isTag "img") c) = true
    · simp only [wrapN, hw, if_true]
      simp only [anyNodeN, anyNodeL, Bool.or_false, Bool.or_eq_false_iff]
      refine ⟨?_, ?_, hc⟩
      · rw [hq "div" [("class", "exercise")] [Node.elem t a (wrapL c)] []]
        exact hdiv
      · rw [hq t a (wrapL c) c]
        exact h1
    · simpa [wrapN, hw] using hkept

theorem localFalse_wrapL (q : Node → Bool) (hq : LocalPred q)
    (hdiv : q (.elem "div" [("class", "exercise")] []) = false) (l : List Node)
    (h : anyNodeL q l = false) : anyNodeL q (wrapL l) = false := by
  have h' := (anyNodeL_false_iff q l).mp h
  rw [wrapL_eq_map]
  exact anyNodeL_map_congr q wrapN l (fun x hx => by
    rw [localFalse_wrapN q hq hdiv x (h' x hx), h' x hx]) ▸ h

/-- After unwrapping a tag, no element with that tag remains. -/
theorem unwrap_no_tagN (tag : String) :
    ∀ n, anyNodeL (isTag tag) (unwrapN tag n) = false := by
  intro n
  induction n using node_ind with
  | ht s => simp [unwrapN, anyNodeL, anyNodeN, isTag]
  | he t a c ih =>
    have hc : anyNodeL (isTag tag) (unwrapL tag c) = false := by
      rw [unwrapL_eq_flatMap]
      exact anyNodeL_flatMap_false _ _ c (fun m hm => ih m hm)
    by_cases ht' : t = tag
    · simp [unwrapN, ht', hc]
    · simp [unwrapN, ht', anyNodeL, anyNodeN, isTag, hc]

theorem unwrap_no_tagL (tag : String) (l : List Node) :
    anyNodeL (isTag tag) (unwrapL tag l) = false := by
  rw [unwrapL_eq_flatMap]
  exact anyNodeL_flatMap_false _ _ l (fun m _ => unwrap_no_tagN tag m)

/-- After a `filterOut` pass whose predicate covers a tag, no element with
that tag remains. -/
theorem filterOut_no_tagN (tag : String) (p : Node → Bool)
    (hcov : ∀ n, isTag tag n = true → p n = true) :
    ∀ n, anyNodeL (isTag tag) (filterOutN p n) = false := by
  intro n
  induction n using node_ind with
  | ht s => simp [filterOutN, anyNodeL, anyNodeN, isTag]
  | he t a c ih =>
    have hc : anyNodeL (isTag tag) (filterOutL p c) = false := by
      rw [filterOutL_eq_flatMap]
      exact anyNodeL_flatMap_false _ _ c (fun m hm => ih m hm)
    by_cases hp : p (.elem t a c) = true
    · simp [filterOutN, hp, anyNodeL]
    · have ht' : (t = tag) = False := by
        simp only [eq_iff_iff, iff_false]
        intro hEq
        exact hp (hcov (.elem t a c) (by simp [isTag, hEq]))
      simp [filterOutN, hp, anyNodeL, anyNodeN, isTag, ht', hc]

theorem filterOut_no_tagL (tag : String) (p : Node → Bool)
    (hcov : ∀ n, isTag tag n = true → p n = true) (l : List Node) :
    anyNodeL (isTag tag) (filterOutL p l) = false := by
  rw [filterOutL_eq_flatMap]
  exact anyNodeL_flatMap_false _ _ l (fun m _ => filterOut_no_tagN tag p hcov m)

/-- After deleting attribute `k` everywhere, no element carries it. -/
theorem delAttr_no_keyN (k : String) :
    ∀ n, anyNodeN (hasKey k) (delAttrN k n) = false := by
  intro n
  induction n using node_ind with
  | ht s => simp [delAttrN, anyNodeN, hasKey]
  | he t a c ih =>
    simp only [delAttrN, anyNodeN, Bool.or_eq_false_iff]
    constructor
    · simp only [hasKey, List.any_eq_false]
      intro kv hkv
      have := List.of_mem_filter hkv
      simpa using this
    · rw [delAttrL_eq_map, anyNodeL_eq_any, List.any_eq_false]
      intro x hx
      obtain ⟨y, hy, rfl⟩ := List.mem_map.mp hx
      simp [ih y hy]

theorem delAttr_no_keyL (k : String) (l : List Node) :
    anyNodeL (hasKey k) (delAttrL k l) = false := by
  rw [delAttrL_eq_map, anyNodeL_eq_any, List.any_eq_false]
  intro x hx
  obtain ⟨y, hy, rfl⟩ := List.mem_map.mp hx
  simp [delAttr_no_keyN k y]

/-- Deleting an attribute does not change which tags appear where. -/
theorem delAttr_tagN (k t : String) :
    ∀ n, anyNodeN (isTag t) (delAttrN k n) = anyNodeN (isTag t) n := by
  intro n
  induction n using node_ind with
  | ht s => rfl
  | he t' a c ih =>
    simp only [delAttrN, anyNodeN, isTag]
    rw [delAttrL_eq_map, anyNodeL_map_congr _ _ c (fun x hx => ih x hx)]

theorem delAttr_tagL (k t : String) (l : List Node) :
    anyNodeL (isTag t) (delAttrL k l) = anyNodeL (isTag t) l := by
  rw [delAttrL_eq_map]
  exact anyNodeL_map_congr _ _ l (fun x hx => delAttr_tagN k t x)

/-- Deleting an attribute never creates an exercise wrapper. -/
theorem delAttr_exDivN (k : String) :
    ∀ n, anyNodeN isExDiv n = false → anyNodeN isExDiv (delAttrN k n) = false := by
  intro n
  induction n using node_ind with
  | ht s => intro h; simpa [delAttrN] using h
  | he t a c ih =>
    intro h
    simp only [anyNodeN, Bool.or_eq_false_iff] at h
    obtain ⟨h1, h2⟩ := h
    have h2' := (anyNodeL_false_iff _ c).mp h2
    simp only [delAttrN, anyNodeN, Bool.or_eq_false_iff]
    constructor
    · simp only [isExDiv, Bool.and_eq_false_iff] at h1 ⊢
      rcases h1 with h1 | h1
      · exact Or.inl h1
      · refine Or.inr ?_
        rw [List.any_eq_false] at h1 ⊢
        intro kv hkv
        exact h1 kv (List.mem_of_mem_filter hkv)
    · rw [delAttrL_eq_map, anyNodeL_eq_any, List.any_eq_false]
      intro x hx
      obtain ⟨y, hy, rfl⟩ := List.mem_map.mp hx
      simp [ih y hy (h2' y hy)]

theorem delAttr_exDivL (k : String) (l : List Node)
    (h : anyNodeL isExDiv l = false) : anyNodeL isExDiv (delAttrL k l) = false := by
  have h' := (anyNodeL_false_iff _ l).mp h
  rw [delAttrL_eq_map, anyNodeL_eq_any, List.any_eq_false]
  intro x hx
  obtain ⟨y, hy, rfl⟩ := List.mem_map.mp hx
  simp [delAttr_exDivN k y (h' y hy)]

theorem allWs_append (a b : List Char) : allWs (a ++ b) = (allWs a && allWs b) := by
  simp [allWs]

theorem textL_append (a b : List Node) : textL (a ++ b) = textL a ++ textL b := by
  simp [textL_eq_flatMap]

theorem textMap (f : Node → Node) (l : List Node)
    (h : ∀ n ∈ l, textN (f n) = textN n) : textL (l.map f) = textL l := by
  induction l with
  | nil => rfl
  | cons n ns ih =>
    simp only [List.map_cons, textL]
    rw [h n (by simp), ih (fun m hm => h m (by simp [hm]))]

theorem textFlat (g : Node → List Node) (l : List Node)
    (h : ∀ n ∈ l, textL (g n) = textN n) : textL (l.flatMap g) = textL l := by
  induction l with
  | nil => rfl
  | cons n ns ih =>
    simp only [List.flatMap_cons, textL_append, textL]
    rw [h n (by simp), ih (fun m hm => h m (by simp [hm]))]

theorem textN_delAttrN (k : String) : ∀ n, textN (delAttrN k n) = textN n := by
  intro n
  induction n using node_ind with
  | ht s => rfl
  | he t a c ih =>
    show textL (delAttrL k c) = textL c
    rw [delAttrL_eq_map]
    exact textMap _ c ih

theorem textL_delAttrL (k : String) (l : List Node) : textL (delAttrL k l) = textL l := by
  rw [delAttrL_eq_map]
  exact textMap _ l (fun n _ => textN_delAttrN k n)

theorem textL_unwrapN (tag : String) : ∀ n, textL (unwrapN tag n) = textN n := by
  intro n
  induction n using node_ind with
  | ht s => simp [unwrapN, textL, textN]
  | he t a c ih =>
    have hc : textL (unwrapL tag c) = textL c := by
      rw [unwrapL_eq_flatMap]
      exact textFlat _ c ih
    by_cases ht' : t = tag
    · simp [unwrapN, ht', textN, hc]
    · simp [unwrapN, ht', textL, textN, hc]

theorem textL_unwrapL (tag : String) (l : List Node) : textL (unwrapL tag l) = textL l := by
  rw [unwrapL_eq_flatMap]
  exact textFlat _ l (fun n _ => textL_unwrapN tag n)

theorem textN_wrapN : ∀ n, textN (wrapN n) = textN n := by
  intro n
  induction n using node_ind with
  | ht s => rfl
  | he t a c ih =>
    have hc : textL (wrapL c) = textL c := by
      rw [wrapL_eq_map]
      exact textMap _ c ih
    by_cases hw : (t = "p" && anyNodeL (isTag "img") c) = true
    · simp [wrapN, hw, textN, textL, hc]
    · simp [wrapN, hw, textN, hc]

theorem textL_wrapL (l : List Node) : textL (wrapL l) = textL l := by
  rw [wrapL_eq_map]
  exact textMap _ l (fun n _ => textN_wrapN n)

theorem allWsFlat (g : Node → List Node) (l : List Node)
    (h : ∀ n ∈ l, allWs (textL (g n)) = allWs (textN n)) :
    allWs (textL (l.flatMap g)) = allWs (textL l) := by
  induction l with
  | nil => rfl
  | cons n ns ih =>
    simp only [List.flatMap_cons, textL_append, textL, allWs_append]
    rw [h n (by simp), ih (fun m hm => h m (by simp [hm]))]

theorem allWs_filterOutN_ET :
    ∀ n, allWs (textL (filterOutN isEmptyTable n)) = allWs (textN n) := by
  intro n
  induction n using node_ind with
  | ht s => simp [filterOutN, textL, textN]
  | he t a c ih =>
    have hc : allWs (textL (filterOutL isEmptyTable c)) = allWs (textL c) := by
      rw [filterOutL_eq_flatMap]
      exact allWsFlat _ c ih
    by_cases hp : isEmptyTable (.elem t a c) = true
    · have hws : allWs (textL c) = true := by
        simp only [isEmptyTable, Bool.and_eq_true] at hp
        exact hp.2
      simp only [filterOutN, hp, if_true]
      show allWs (textL []) = allWs (textN (Node.elem t a c))
      simp only [textL, textN, hws]
      rfl
    · simp only [filterOutN, hp, if_false, Bool.false_eq_true]
      show allWs (textL [Node.elem t a (filterOutL isEmptyTable c)]) =
        allWs (textN (Node.elem t a c))
      simp only [textL, textN, List.append_nil]
      exact hc

theorem allWs_filterOutL_ET (l : List Node) :
    allWs (textL (filterOutL isEmptyTable l)) = allWs (textL l) := by
  rw [filterOutL_eq_flatMap]
  exact allWsFlat _ l (fun n _ => allWs_filterOutN_ET n)

theorem textL_filterOutN_img :
    ∀ n, anyNodeN imgNonVoid n = false → textL (filterOutN isImg n) = textN n := by
  intro n
  induction n using node_ind with
  | ht s => intro _; simp [filterOutN, textL, textN]
  | he t a c ih =>
    intro h
    simp only [anyNodeN, Bool.or_eq_false_iff] at h
    obtain ⟨h1, h2⟩ := h
    have h2' := (anyNodeL_false_iff _ c).mp h2
    have hc : textL (filterOutL isImg c) = textL c := by
      rw [filterOutL_eq_flatMap]
      exact textFlat _ c (fun m hm => ih m hm (h2' m hm))
    by_cases hp : isImg (.elem t a c) = true
    · have ht' : t = "img" := by
        simpa [isImg, isTag] using hp
      have hcE : c = [] := by
        simp only [imgNonVoid, ht', Bool.and_eq_false_iff] at h1
        rcases h1 with h1 | h1
        · simp at h1
        · simpa using h1
      subst hcE
      simp [filterOutN, hp, textL, textN]
    · simp only [filterOutN, hp, if_false, Bool.false_eq_true]
      show textL [Node.elem t a (filterOutL isImg c)] = textN (Node.elem t a c)
      simp only [textL, textN, List.append_nil]
      exact hc

theorem textL_filterOutL_img (l : List Node) (h : anyNodeL imgNonVoid l = false) :
    textL (filterOutL isImg l) = textL l := by
  have h' := (anyNodeL_false_iff _ l).mp h
  rw [filterOutL_eq_flatMap]
  exact textFlat _ l (fun m hm => textL_filterOutN_img m (h' m hm))

theorem imgVoid_filterOutN (p : Node → Bool) :
    ∀ n, anyNodeN imgNonVoid n = false → anyNodeL imgNonVoid (filterOutN p n) = false := by
  intro n
  induction n using node_ind with
  | ht s => intro h; simpa [filterOutN, anyNodeL, anyNodeN] using h
  | he t a c ih =>
    intro h
    simp only [anyNodeN, Bool.or_eq_false_iff] at h
    obtain ⟨h1, h2⟩ := h
    have h2' := (anyNodeL_false_iff _ c).mp h2
    by_cases hp : p (.elem t a c) = true
    · simp [filterOutN, hp, anyNodeL]
    · have hkeep : imgNonVoid (Node.elem t a (filterOutL p c)) = false := by
        simp only [imgNonVoid, Bool.and_eq_false_iff] at h1 ⊢
        rcases h1 with h1 | h1
        · exact Or.inl h1
        · right
          have hcE : c = [] := by simpa using h1
          subst hcE
          simp [filterOutL]
      simp only [filterOutN, hp, if_false, Bool.false_eq_true]
      simp only [anyNodeL, anyNodeN, Bool.or_false, Bool.or_eq_false_iff]
      refine ⟨hkeep, ?_⟩
      rw [filterOutL_eq_flatMap]
      exact anyNodeL_flatMap_false _ _ c (fun m hm => ih m hm (h2' m hm))

theorem imgVoid_filterOutL (p : Node → Bool) (l : List Node)
    (h : anyNodeL imgNonVoid l = false) : anyNodeL imgNonVoid (filterOutL p l) = false := by
  have h' := (anyNodeL_false_iff _ l).mp h
  rw [filterOutL_eq_flatMap]
  exact anyNodeL_flatMap_false _ _ l (fun m hm => imgVoid_filterOutN p m (h' m hm))

theorem imgVoid_unwrapN (tag : String) :
    ∀ n, anyNodeN imgNonVoid n = false → anyNodeL imgNonVoid (unwrapN tag n) = false := by
  intro n
  induction n using node_ind with
  | ht s => intro h; simpa [unwrapN, anyNodeL, anyNodeN] using h
  | he t a c ih =>
    intro h
    simp only [anyNodeN, Bool.or_eq_false_iff] at h
    obtain ⟨h1, h2⟩ := h
    have h2' := (anyNodeL_false_iff _ c).mp h2
    have hc : anyNodeL imgNonVoid (unwrapL tag c) = false := by
      rw [unwrapL_eq_flatMap]
      exact anyNodeL_flatMap_false _ _ c (fun m hm => ih m hm (h2' m hm))
    by_cases ht' : t = tag
    · simp [unwrapN, ht', hc]
    · have hkeep : imgNonVoid (Node.elem t a (unwrapL tag c)) = false := by
        simp only [imgNonVoid, Bool.and_eq_false_iff] at h1 ⊢
        rcases h1 with h1 | h1
        · exact Or.inl h1
        · right
          have hcE : c = [] := by simpa using h1
          subst hcE
          simp [unwrapL]
      simp only [unwrapN, ht', if_false]
      simp only [anyNodeL, anyNodeN, Bool.or_false, Bool.or_eq_false_iff]
      exact ⟨hkeep, hc⟩

theorem imgVoid_unwrapL (tag : String) (l : List Node)
    (h : anyNodeL imgNonVoid l = false) : anyNodeL imgNonVoid (unwrapL tag l) = false := by
  have h' := (anyNodeL_false_iff _ l).mp h
  rw [unwrapL_eq_flatMap]
  exact anyNodeL_flatMap_false _ _ l (fun m hm => imgVoid_unwrapN tag m (h' m hm))

theorem imgVoid_wrapN :
    ∀ n, anyNodeN imgNonVoid n = false → anyNodeN imgNonVoid (wrapN n) = false := by
  intro n
  induction n using node_ind with
  | ht s => intro h; simpa [wrapN] using h
  | he t a c ih =>
    intro h
    simp only [anyNodeN, Bool.or_eq_false_iff] at h
    obtain ⟨h1, h2⟩ := h
    have h2' := (anyNodeL_false_iff _ c).mp h2
    have hc : anyNodeL imgNonVoid (wrapL c) = false := by
      rw [wrapL_eq_map, anyNodeL_eq_any, List.any_eq_false]
      intro x hx
      obtain ⟨y, hy, rfl⟩ := List.mem_map.mp hx
      simp [ih y hy (h2' y hy)]
    have hkeep : imgNonVoid (Node.elem t a (wrapL c)) = false := by
      simp only [imgNonVoid, Bool.and_eq_false_iff] at h1 ⊢
      rcases h1 with h1 | h1
      · exact Or.inl h1
      · right
        have hcE : c = [] := by simpa using h1
        subst hcE
        simp [wrapL]
    by_cases hw : (t = "p" && anyNodeL (isTag "img") c) = true
    · simp only [wrapN, hw, if_true]
      simp only [anyNodeN, anyNodeL, Bool.or_false, Bool.or_eq_false_iff]
      refine ⟨by simp [imgNonVoid], hkeep, hc⟩
    · simp only [wrapN, hw, if_false, Bool.false_eq_true]
      simp only [anyNodeN, Bool.or_eq_false_iff]
      exact ⟨hkeep, hc⟩

theorem imgVoid_wrapL (l : List Node)
    (h : anyNodeL imgNonVoid l = false) : anyNodeL imgNonVoid (wrapL l) = false := by
  have h' := (anyNodeL_false_iff _ l).mp h
  rw [wrapL_eq_map, anyNodeL_eq_any, List.any_eq_false]
  intro x hx
  obtain ⟨y, hy, rfl⟩ := List.mem_map.mp hx
  simp [imgVoid_wrapN y (h' y hy)]

theorem imgVoid_delAttrN (k : String) :
    ∀ n, anyNodeN imgNonVoid n = false → anyNodeN imgNonVoid (delAttrN k n) = false := by
  intro n
  induction n using node_ind with
  | ht s => intro h; simpa [delAttrN] using h
  | he t a c ih =>
    intro h
    simp only [anyNodeN, Bool.or_eq_false_iff] at h
    obtain ⟨h1, h2⟩ := h
    have h2' := (anyNodeL_false_iff _ c).mp h2
    simp only [delAttrN, anyNodeN, Bool.or_eq_false_iff]
    constructor
    · simp only [imgNonVoid, Bool.and_eq_false_iff] at h1 ⊢
      rcases h1 with h1 | h1
      · exact Or.inl h1
      · right
        have hcE : c = [] := by simpa using h1
        subst hcE
        simp [delAttrL]
    · rw [delAttrL_eq_map, anyNodeL_eq_any, List.any_eq_false]
      intro x hx
      obtain ⟨y, hy, rfl⟩ := List.mem_map.mp hx
      simp [ih y hy (h2' y hy)]

theorem imgVoid_delAttrL (k : String) (l : List Node)
    (h : anyNodeL imgNonVoid l = false) : anyNodeL imgNonVoid (delAttrL k l) = false := by
  have h' := (anyNodeL_false_iff _ l).mp h
  rw [delAttrL_eq_map, anyNodeL_eq_any, List.any_eq_false]
  intro x hx
  obtain ⟨y, hy, rfl⟩ := List.mem_map.mp hx
  simp [imgVoid_delAttrN k y (h' y hy)]

/-- After the empty-table purge no whitespace-only table remains. -/
theorem noET_filterOutN :
    ∀ n, anyNodeL isEmptyTable (filterOutN isEmptyTable n) = false := by
  intro n
  induction n using node_ind with
  | ht s => simp [filterOutN, anyNodeL, anyNodeN, isEmptyTable]
  | he t a c ih =>
    by_cases hp : isEmptyTable (.elem t a c) = true
    · simp [filterOutN, hp, anyNodeL]
    · have hp' : (decide (t = "table") && allWs (textL c)) = false := by
        have h0 := hp
        simp only [isEmptyTable] at h0
        exact Bool.eq_false_iff.mpr h0
      have hkeep : isEmptyTable (Node.elem t a (filterOutL isEmptyTable c)) = false := by
        simp only [isEmptyTable]
        rw [allWs_filterOutL_ET]
        exact hp'
      simp only [filterOutN, hp, if_false, Bool.false_eq_true]
      simp only [anyNodeL, anyNodeN, Bool.or_false, Bool.or_eq_false_iff]
      refine ⟨hkeep, ?_⟩
      rw [filterOutL_eq_flatMap]
      exact anyNodeL_flatMap_false _ _ c (fun m hm => ih m hm)

theorem noET_filterOutL (l : List Node) :
    anyNodeL isEmptyTable (filterOutL isEmptyTable l) = false := by
  rw [filterOutL_eq_flatMap]
  exact anyNodeL_flatMap_false _ _ l (fun m _ => noET_filterOutN m)

/-- The wrap pass cannot create a whitespace-only table. -/
theorem noET_wrapN :
    ∀ n, anyNodeN isEmptyTable n = false → anyNodeN isEmptyTable (wrapN n) = false := by
  intro n
  induction n using node_ind with
  | ht s => intro h; simpa [wrapN] using h
  | he t a c ih =>
    intro h
    simp only [anyNodeN, Bool.or_eq_false_iff] at h
    obtain ⟨h1, h2⟩ := h
    have h2' := (anyNodeL_false_iff _ c).mp h2
    have hc : anyNodeL isEmptyTable (wrapL c) = false := by
      rw [wrapL_eq_map, anyNodeL_eq_any, List.any_eq_false]
      intro x hx
      obtain ⟨y, hy, rfl⟩ := List.mem_map.mp hx
      simp [ih y hy (h2' y hy)]
    have hkeep : isEmptyTable (Node.elem t a (wrapL c)) = false := by
      simp only [isEmptyTable, textL_wrapL]
      simpa [isEmptyTable] using h1
    by_cases hw : (t = "p" && anyNodeL (isTag "img") c) = true
    · simp only [wrapN, hw, if_true]
      simp only [anyNodeN, anyNodeL, Bool.or_false, Bool.or_eq_false_iff]
      refine ⟨by simp [isEmptyTable], hkeep, hc⟩
    · simp only [wrapN, hw, if_false, Bool.false_eq_true]
      simp only [anyNodeN, Bool.or_eq_false_iff]
      exact ⟨hkeep, hc⟩

theorem noET_wrapL (l : List Node) (h : anyNodeL isEmptyTable l = false) :
    anyNodeL isEmptyTable (wrapL l) = false := by
  have h' := (anyNodeL_false_iff _ l).mp h
  rw [wrapL_eq_map, anyNodeL_eq_any, List.any_eq_false]
  intro x hx
  obtain ⟨y, hy, rfl⟩ := List.mem_map.mp hx
  simp [noET_wrapN y (h' y hy)]

/-- An unwrap pass cannot create a whitespace-only table. -/
theorem noET_unwrapN (tag : String) :
    ∀ n, anyNodeN isEmptyTable n = false → anyNodeL isEmptyTable (unwrapN tag n) = false := by
  intro n
  induction n using node_ind with
  | ht s => intro h; simpa [unwrapN, anyNodeL, anyNodeN] using h
  | he t a c ih =>
    intro h
    simp only [anyNodeN, Bool.or_eq_false_iff] at h
    obtain ⟨h1, h2⟩ := h
    have h2' := (anyNodeL_false_iff _ c).mp h2
    have hc : anyNodeL isEmptyTable (unwrapL tag c) = false := by
      rw [unwrapL_eq_flatMap]
      exact anyNodeL_flatMap_false _ _ c (fun m hm => ih m hm (h2' m hm))
    by_cases ht' : t = tag
    · simp [unwrapN, ht', hc]
    · have hkeep : isEmptyTable (Node.elem t a (unwrapL tag c)) = false := by
        simp only [isEmptyTable, textL_unwrapL]
        simpa [isEmptyTable] using h1
      simp only [unwrapN, ht', if_false]
      simp only [anyNodeL, anyNodeN, Bool.or_false, Bool.or_eq_false_iff]
      exact ⟨hkeep, hc⟩

theorem noET_unwrapL (tag : String) (l : List Node) (h : anyNodeL isEmptyTable l = false) :
    anyNodeL isEmptyTable (unwrapL tag l) = false := by
  have h' := (anyNodeL_false_iff _ l).mp h
  rw [unwrapL_eq_flatMap]
  exact anyNodeL_flatMap_false _ _ l (fun m hm => noET_unwrapN tag m (h' m hm))

/-- When every `img` is childless, removing images cannot create a
whitespace-only table. -/
theorem noET_filterImgN :
    ∀ n, anyNodeN imgNonVoid n = false → anyNodeN isEmptyTable n = false →
      anyNodeL isEmptyTable (filterOutN isImg n) = false := by
  intro n
  induction n using node_ind with
  | ht s => intro _ h; simpa [filterOutN, anyNodeL, anyNodeN] using h
  | he t a c ih =>
    intro hv h
    simp only [anyNodeN, Bool.or_eq_false_iff] at hv h
    obtain ⟨hv1, hv2⟩ := hv
    obtain ⟨h1, h2⟩ := h
    have hv2' := (anyNodeL_false_iff _ c).mp hv2
    have h2' := (anyNodeL_false_iff _ c).mp h2
    have hc : anyNodeL isEmptyTable (filterOutL isImg c) = false := by
      rw [filterOutL_eq_flatMap]
      exact anyNodeL_flatMap_false _ _ c (fun m hm => ih m hm (hv2' m hm) (h2' m hm))
    by_cases hp : isImg (.elem t a c) = true
    · simp [filterOutN, hp, anyNodeL]
    · have hkeep : isEmptyTable (Node.elem t a (filterOutL isImg c)) = false := by
        simp only [isEmptyTable, textL_filterOutL_img c hv2]
        simpa [isEmptyTable] using h1
      simp only [filterOutN, hp, if_false, Bool.false_eq_true]
      simp only [anyNodeL, anyNodeN, Bool.or_false, Bool.or_eq_false_iff]
      exact ⟨hkeep, hc⟩

theorem noET_filterImgL (l : List Node) (hv : anyNodeL imgNonVoid l = false)
    (h : anyNodeL isEmptyTable l = false) :
    anyNodeL isEmptyTable (filterOutL isImg l) = false := by
  have hv' := (anyNodeL_false_iff _ l).mp hv
  have h' := (anyNodeL_false_iff _ l).mp h
  rw [filterOutL_eq_flatMap]
  exact anyNodeL_flatMap_false _ _ l (fun m hm => noET_filterImgN m (hv' m hm) (h' m hm))

theorem delAttrL_append (k : String) (a b : List Node) :
    delAttrL k (a ++ b) = delAttrL k a ++ delAttrL k b := by
  simp [delAttrL_eq_map]

theorem remove_lang_idem (d : Doc) :
    remove_lang_attributes (remove_lang_attributes d) = remove_lang_attributes d :=
  delAttrL_id_of_no "lang" _ (delAttr_no_keyL "lang" d)

theorem remove_spans_idem (d : Doc) :
    remove_spans_tags (remove_spans_tags d) = remove_spans_tags d :=
  unwrapL_id_of_no "span" _ (unwrap_no_tagL "span" d)

theorem remove_imgs_idem (d : Doc) :
    remove_imgs_tags (remove_imgs_tags d) = remove_imgs_tags d :=
  filterOutL_id_of_no isImg _ (filterOut_no_tagL "img" isImg (fun _ h => h) d)

theorem clean_empty_tables_idem (d : Doc) :
    clean_empty_tables (clean_empty_tables d) = clean_empty_tables d :=
  filterOutL_id_of_no isEmptyTable _ (noET_filterOutL d)

theorem filterET_delAttr_commL_of (k : String) (l : List Node)
    (h : ∀ n ∈ l, filterOutN isEmptyTable (delAttrN k n) =
      delAttrL k (filterOutN isEmptyTable n)) :
    filterOutL isEmptyTable (delAttrL k l) = delAttrL k (filterOutL isEmptyTable l) := by
  induction l with
  | nil => rfl
  | cons m ms ihc =>
    simp only [delAttrL, filterOutL]
    rw [h m (by simp), ihc (fun x hx => h x (by simp [hx])), ← delAttrL_append]

theorem filterET_delAttr_commN (k : String) :
    ∀ n, filterOutN isEmptyTable (delAttrN k n) = delAttrL k (filterOutN isEmptyTable n) := by
  intro n
  induction n using node_ind with
  | ht s => rfl
  | he t a c ih =>
    have hpred : isEmptyTable (Node.elem t (a.filter (fun kv => kv.1 ≠ k)) (delAttrL k c)) =
        isEmptyTable (Node.elem t a c) := by
      simp only [isEmptyTable]
      rw [textL_delAttrL]
    by_cases hp : isEmptyTable (.elem t a c) = true
    · simp only [delAttrN, filterOutN, hpred, hp, if_true]
      rfl
    · simp only [delAttrN, filterOutN, hpred, hp, if_false, Bool.false_eq_true]
      rw [filterET_delAttr_commL_of k c ih]
      rfl

theorem filterET_delAttr_commL (k : String) (l : List Node) :
    filterOutL isEmptyTable (delAttrL k l) = delAttrL k (filterOutL isEmptyTable l) :=
  filterET_delAttr_commL_of k l (fun n _ => filterET_delAttr_commN k n)

/-- The defaults of the pipeline, unfolded to the claimed rule order. -/
theorem clean_default_unfold (d : Doc) :
    clean defaultFlags d = remove_imgs_tags (remove_spans_tags (wrap_paragraph_with_div
      (clean_empty_tables (remove_lang_attributes d)))) := rfl

/-- The defaults with image-wrap disabled, unfolded. -/
theorem clean_nowrap_unfold (d : Doc) :
    clean ⟨true, true, true, true, false⟩ d = remove_imgs_tags (remove_spans_tags
      (clean_empty_tables (remove_lang_attributes d))) := rfl

/-- Running the whole default pipeline twice changes nothing more, on any
tree whose `img` elements are childless (what an HTML parser produces). -/
theorem clean_default_idem (d : Doc) (hv : anyNodeL imgNonVoid d = false) :
    clean defaultFlags (clean defaultFlags d) = clean defaultFlags d := by
  have hv1 : anyNodeL imgNonVoid (remove_lang_attributes d) = false :=
    imgVoid_delAttrL _ _ hv
  have hv2 : anyNodeL imgNonVoid (clean_empty_tables (remove_lang_attributes d)) = false :=
    imgVoid_filterOutL _ _ hv1
  have hv3 : anyNodeL imgNonVoid (wrap_paragraph_with_div (clean_empty_tables
      (remove_lang_attributes d))) = false := imgVoid_wrapL _ hv2
  have hv4 : anyNodeL imgNonVoid (remove_spans_tags (wrap_paragraph_with_div
      (clean_empty_tables (remove_lang_attributes d)))) = false := imgVoid_unwrapL _ _ hv3
  have hl1 : anyNodeL (hasKey "lang") (remove_lang_attributes d) = false :=
    delAttr_no_keyL "lang" d
  have hl2 : anyNodeL (hasKey "lang") (clean_empty_tables (remove_lang_attributes d)) = false :=
    localFalse_filterOutL _ _ (hasKey_local "lang") _ hl1
  have hl3 : anyNodeL (hasKey "lang") (wrap_paragraph_with_div (clean_empty_tables
      (remove_lang_attributes d))) = false :=
    localFalse_wrapL _ (hasKey_local "lang") (by rfl) _ hl2
  have hl4 : anyNodeL (hasKey "lang") (remove_spans_tags (wrap_paragraph_with_div
      (clean_empty_tables (remove_lang_attributes d)))) = false :=
    localFalse_unwrapL _ "span" (hasKey_local "lang") _ hl3
  have hlR : anyNodeL (hasKey "lang") (clean defaultFlags d) = false := by
    rw [clean_default_unfold]
    exact localFalse_filterOutL _ isImg (hasKey_local "lang") _ hl4
  have he2 : anyNodeL isEmptyTable (clean_empty_tables (remove_lang_attributes d)) = false :=
    noET_filterOutL _
  have he3 : anyNodeL isEmptyTable (wrap_paragraph_with_div (clean_empty_tables
      (remove_lang_attributes d))) = false := noET_wrapL _ he2
  have he4 : anyNodeL isEmptyTable (remove_spans_tags (wrap_paragraph_with_div
      (clean_empty_tables (remove_lang_attributes d)))) = false := noET_unwrapL "span" _ he3
  have heR : anyNodeL isEmptyTable (clean defaultFlags d) = false := by
    rw [clean_default_unfold]
    exact noET_filterImgL _ hv4 he4
  have hs4 : anyNodeL (isTag "span") (remove_spans_tags (wrap_paragraph_with_div
      (clean_empty_tables (remove_lang_attributes d)))) = false := unwrap_no_tagL "span" _
  have hsR : anyNodeL (isTag "span") (clean defaultFlags d) = false := by
    rw [clean_default_unfold]
    exact localFalse_filterOutL _ isImg (isTag_local "span") _ hs4
  have hiR : anyNodeL (isTag "img") (clean defaultFlags d) = false := by
    rw [clean_default_unfold]
    exact filterOut_no_tagL "img" isImg (fun _ h => h) _
  calc clean defaultFlags (clean defaultFlags d)
      = remove_imgs_tags (remove_spans_tags (wrap_paragraph_with_div
          (clean_empty_tables (remove_lang_attributes (clean defaultFlags d))))) := rfl
    _ = clean defaultFlags d := by
        rw [show remove_lang_attributes (clean defaultFlags d) = clean defaultFlags d from
          delAttrL_id_of_no _ _ hlR]
        rw [show clean_empty_tables (clean defaultFlags d) = clean defaultFlags d from
          filterOutL_id_of_no _ _ heR]
        rw [show wrap_paragraph_with_div (clean defaultFlags d) = clean defaultFlags d from
          wrapL_id_of_no_img _ hiR]
        rw [show remove_spans_tags (clean defaultFlags d) = clean defaultFlags d from
          unwrapL_id_of_no _ _ hsR]
        exact filterOutL_id_of_no _ _ hiR

theorem tablesL_append (a b : List Node) : tablesL (a ++ b) = tablesL a ++ tablesL b := by
  simp [tablesL_eq_flatMap]

theorem allWs_members (l : List Node) (h : allWs (textL l) = true) :
    ∀ x ∈ l, allWs (textN x) = true := by
  induction l with
  | nil => intro x hx; cases hx
  | cons m ms ih =>
    rw [show textL (m :: ms) = textN m ++ textL ms from rfl, allWs_append,
      Bool.and_eq_true] at h
    intro x hx
    rcases List.mem_cons.mp hx with hx | hx
    · subst hx; exact h.1
    · exact ih h.2 x hx

theorem tablesL_all_of (q : Node → Bool) (l : List Node)
    (h : ∀ x ∈ l, (tablesN x).all q = true) : (tablesL l).all q = true := by
  induction l with
  | nil => rfl
  | cons m ms ih =>
    rw [show tablesL (m :: ms) = tablesN m ++ tablesL ms from rfl, List.all_append]
    rw [h m (by simp), ih (fun x hx => h x (by simp [hx]))]
    rfl

/-- Inside a whitespace-only subtree every table is whitespace-only. -/
theorem tablesAllWsN : ∀ n, allWs (textN n) = true →
    (tablesN n).all (fun m => allWs (textN m)) = true := by
  intro n
  induction n using node_ind with
  | ht s => intro _; rfl
  | he t a c ih =>
    intro h
    have hC : allWs (textL c) = true := h
    have hmem := allWs_members c hC
    have hrest : (tablesL c).all (fun m => allWs (textN m)) = true :=
      tablesL_all_of _ c (fun x hx => ih x hx (hmem x hx))
    show ((if t = "table" then [Node.elem t a c] else []) ++ tablesL c).all _ = true
    rw [List.all_append]
    by_cases ht' : t = "table"
    · simp only [ht', if_true, List.all_cons, List.all_nil, Bool.and_true]
      rw [hrest]
      simp only [Bool.and_true]
      exact hC
    · simp only [ht', if_false, List.all_nil, Bool.true_and]
      exact hrest

theorem tablesAllWsL (l : List Node) (h : allWs (textL l) = true) :
    (tablesL l).all (fun m => allWs (textN m)) = true :=
  tablesL_all_of _ l (fun x hx => tablesAllWsN x (allWs_members l h x hx))

theorem countTbl_of (l : List Node)
    (h : ∀ n ∈ l, (tablesL (filterOutN isEmptyTable n)).length =
      (tablesN n).countP (fun m => !(allWs (textN m)))) :
    (tablesL (filterOutL isEmptyTable l)).length =
      (tablesL l).countP (fun m => !(allWs (textN m))) := by
  induction l with
  | nil => rfl
  | cons m ms ih =>
    rw [show filterOutL isEmptyTable (m :: ms) =
      filterOutN isEmptyTable m ++ filterOutL isEmptyTable ms from rfl, tablesL_append,
      List.length_append, show tablesL (m :: ms) = tablesN m ++ tablesL ms from rfl,
      List.countP_append, h m (by simp), ih (fun x hx => h x (by simp [hx]))]

/-- The empty-table purge removes exactly the whitespace-only tables: the
number of surviving tables equals the number of tables with real text. -/
theorem countTblN : ∀ n, (tablesL (filterOutN isEmptyTable n)).length =
    (tablesN n).countP (fun m => !(allWs (textN m))) := by
  intro n
  induction n using node_ind with
  | ht s => rfl
  | he t a c ih =>
    by_cases hp : isEmptyTable (.elem t a c) = true
    · have ht' : t = "table" := by
        simp only [isEmptyTable, Bool.and_eq_true, decide_eq_true_iff] at hp
        exact hp.1
      have hws : allWs (textL c) = true := by
        simp only [isEmptyTable, Bool.and_eq_true] at hp
        exact hp.2
      simp only [filterOutN, hp, if_true]
      have hall := tablesAllWsL c hws
      rw [List.all_eq_true] at hall
      have hz : (tablesL c).countP (fun m => !(allWs (textN m))) = 0 := by
        rw [List.countP_eq_zero]
        intro x hx
        simp [hall x hx]
      show (tablesL []).length =
        ((if t = "table" then [Node.elem t a c] else []) ++ tablesL c).countP
          (fun m => !(allWs (textN m)))
      rw [List.countP_append, hz, show tablesL ([] : List Node) = [] from rfl, if_pos ht']
      simp [List.countP_cons, textN, hws]
    · have hlist := countTbl_of c ih
      simp only [filterOutN, hp, if_false, Bool.false_eq_true]
      show (tablesN (Node.elem t a (filterOutL isEmptyTable c)) ++ tablesL []).length =
        ((if t = "table" then [Node.elem t a c] else []) ++ tablesL c).countP
          (fun m => !(allWs (textN m)))
      rw [show tablesN (Node.elem t a (filterOutL isEmptyTable c)) =
        (if t = "table" then [Node.elem t a (filterOutL isEmptyTable c)] else []) ++
          tablesL (filterOutL isEmptyTable c) from rfl]
      rw [show tablesL ([] : List Node) = [] from rfl, List.append_nil, List.countP_append,
        List.length_append, hlist]
      by_cases ht' : t = "table"
      · have hws : allWs (textL c) = false := by
          have h0 := hp
          simp only [isEmptyTable, ht'] at h0
          cases hA : allWs (textL c)
          · rfl
          · exfalso
            apply h0
            simp [hA]
        rw [if_pos ht', if_pos ht']
        have hone : List.countP (fun m => !(allWs (textN m))) [Node.elem t a c] = 1 := by
          simp [List.countP_cons, textN, hws]
        simp [hone]
      · rw [if_neg ht', if_neg ht']
        simp

theorem countTblL (l : List Node) : (tablesL (filterOutL isEmptyTable l)).length =
    (tablesL l).countP (fun m => !(allWs (textN m))) :=
  countTbl_of l (fun n _ => countTblN n)

theorem survTblWs_of (l : List Node)
    (h : ∀ n ∈ l, (tablesL (filterOutN isEmptyTable n)).all
      (fun m => !(allWs (textN m))) = true) :
    (tablesL (filterOutL isEmptyTable l)).all (fun m => !(allWs (textN m))) = true := by
  induction l with
  | nil => rfl
  | cons m ms ih =>
    rw [show filterOutL isEmptyTable (m :: ms) =
      filterOutN isEmptyTable m ++ filterOutL isEmptyTable ms from rfl, tablesL_append,
      List.all_append, h m (by simp), ih (fun x hx => h x (by simp [hx]))]
    rfl

/-- Every table surviving the empty-table purge has non-whitespace text. -/
theorem survTblWsN : ∀ n, (tablesL (filterOutN isEmptyTable n)).all
    (fun m => !(allWs (textN m))) = true := by
  intro n
  induction n using node_ind with
  | ht s => rfl
  | he t a c ih =>
    by_cases hp : isEmptyTable (.elem t a c) = true
    · simp [filterOutN, hp, tablesL]
    · simp only [filterOutN, hp, if_false, Bool.false_eq_true]
      have hlist := survTblWs_of c ih
      rw [show tablesL [Node.elem t a (filterOutL isEmptyTable c)] =
        ((if t = "table" then [Node.elem t a (filterOutL isEmptyTable c)] else []) ++
          tablesL (filterOutL isEmptyTable c)) ++ tablesL [] from rfl]
      rw [show tablesL ([] : List Node) = [] from rfl, List.append_nil, List.all_append]
      by_cases ht' : t = "table"
      · have hws : allWs (textL c) = false := by
          have h0 := hp
          simp only [isEmptyTable, ht'] at h0
          cases hA : allWs (textL c)
          · rfl
          · exfalso
            apply h0
            simp [hA]
        rw [if_pos ht']
        rw [hlist]
        have hmt : allWs (textN (Node.elem t a (filterOutL isEmptyTable c))) = false := by
          show allWs (textL (filterOutL isEmptyTable c)) = false
          rw [allWs_filterOutL_ET]
          exact hws
        simp [hmt]
      · rw [if_neg ht']
        simp [hlist]

theorem survTblWsL (l : List Node) : (tablesL (filterOutL isEmptyTable l)).all
    (fun m => !(allWs (textN m))) = true :=
  survTblWs_of l (fun n _ => survTblWsN n)

/-- A subtree hosts no table exactly when its collected table list is empty. -/
theorem tablesN_nil_iff : ∀ n, tablesN n = [] ↔ anyNodeN isTable n = false := by
  intro n
  induction n using node_ind with
  | ht s => simp [tablesN, anyNodeN, isTable, isTag]
  | he t a c ih =>
    have hlist : tablesL c = [] ↔ anyNodeL isTable c = false := by
      rw [tablesL_eq_flatMap, anyNodeL_false_iff, List.flatMap_eq_nil_iff]
      constructor
      · intro h x hx
        exact (ih x hx).mp (h x hx)
      · intro h x hx
        exact (ih x hx).mpr (h x hx)
    show ((if t = "table" then [Node.elem t a c] else []) ++ tablesL c) = [] ↔
      (isTable (Node.elem t a c) || anyNodeL isTable c) = false
    rw [List.append_eq_nil, Bool.or_eq_false_iff]
    by_cases ht' : t = "table"
    · simp [ht', isTable, isTag]
    · simp only [ht', if_false]
      simp [isTable, isTag, ht', hlist]

theorem tablesL_nil_iff (l : List Node) : tablesL l = [] ↔ anyNodeL isTable l = false := by
  rw [tablesL_eq_flatMap, anyNodeL_false_iff, List.flatMap_eq_nil_iff]
  constructor
  · intro h x hx
    exact (tablesN_nil_iff x).mp (h x hx)
  · intro h x hx
    exact (tablesN_nil_iff x).mpr (h x hx)

/-- Deleting an attribute neither creates nor destroys paragraphs containing
images. -/
theorem delAttr_pImgN (k : String) :
    ∀ n, anyNodeN isPImg (delAttrN k n) = anyNodeN isPImg n := by
  intro n
  induction n using node_ind with
  | ht s => rfl
  | he t a c ih =>
    simp only [delAttrN, anyNodeN]
    have h1 : isPImg (Node.elem t (a.filter (fun kv => kv.1 ≠ k)) (delAttrL k c)) =
        isPImg (Node.elem t a c) := by
      simp only [isPImg]
      rw [delAttr_tagL]
    have h2 : anyNodeL isPImg (delAttrL k c) = anyNodeL isPImg c := by
      rw [delAttrL_eq_map]
      exact anyNodeL_map_congr _ _ c (fun x hx => ih x hx)
    rw [h1, h2]

theorem delAttr_pImgL (k : String) (l : List Node) :
    anyNodeL isPImg (delAttrL k l) = anyNodeL isPImg l := by
  rw [delAttrL_eq_map]
  exact anyNodeL_map_congr _ _ l (fun x hx => delAttr_pImgN k x)

/-- The wrap pass turns every present paragraph-with-image into an exercise
wrapper with a `p` child. -/
theorem wrap_createsN :
    ∀ n, anyNodeN isPImg n = true → anyNodeN isExDivP (wrapN n) = true := by
  intro n
  induction n using node_ind with
  | ht s => intro h; simp [isPImg, anyNodeN] at h
  | he t a c ih =>
    intro h
    rw [show anyNodeN isPImg (Node.elem t a c) =
      (isPImg (Node.elem t a c) || anyNodeL isPImg c) from rfl, Bool.or_eq_true] at h
    rcases h with h | h
    · have hw : (t = "p" && anyNodeL (isTag "img") c) = true := by
        simpa [isPImg] using h
      simp only [wrapN, hw, if_true]
      have ht' : t = "p" := by
        simp only [Bool.and_eq_true, decide_eq_true_iff] at hw
        exact hw.1
      have hpred : isExDivP (Node.elem "div" [("class", "exercise")]
          [Node.elem t a (wrapL c)]) = true := by
        simp [isExDivP, isTag, ht']
      rw [show anyNodeN isExDivP (Node.elem "div" [("class", "exercise")]
        [Node.elem t a (wrapL c)]) = (isExDivP (Node.elem "div" [("class", "exercise")]
        [Node.elem t a (wrapL c)]) || anyNodeL isExDivP [Node.elem t a (wrapL c)]) from rfl]
      rw [hpred]
      rfl
    · rw [anyNodeL_eq_any, List.any_eq_true] at h
      obtain ⟨x, hx, hsat⟩ := h
      have hchild : anyNodeL isExDivP (wrapL c) = true := by
        apply anyNodeL_true_of_mem _ _ (wrapN x)
        · rw [wrapL_eq_map]
          exact List.mem_map_of_mem _ hx
        · exact ih x hx hsat
      by_cases hw : (t = "p" && anyNodeL (isTag "img") c) = true
      · simp only [wrapN, hw, if_true]
        show (isExDivP _ || anyNodeL isExDivP [Node.elem t a (wrapL c)]) = true
        rw [show anyNodeL isExDivP [Node.elem t a (wrapL c)] =
          (anyNodeN isExDivP (Node.elem t a (wrapL c)) || false) from rfl]
        rw [show anyNodeN isExDivP (Node.elem t a (wrapL c)) =
          (isExDivP (Node.elem t a (wrapL c)) || anyNodeL isExDivP (wrapL c)) from rfl]
        rw [hchild]
        simp
      · simp only [wrapN, hw, if_false, Bool.false_eq_true]
        show (isExDivP (Node.elem t a (wrapL c)) || anyNodeL isExDivP (wrapL c)) = true
        rw [hchild]
        simp

theorem wrap_createsL (l : List Node) (h : anyNodeL isPImg l = true) :
    anyNodeL isExDivP (wrapL l) = true := by
  rw [anyNodeL_eq_any, List.any_eq_true] at h
  obtain ⟨x, hx, hsat⟩ := h
  apply anyNodeL_true_of_mem _ _ (wrapN x)
  · rw [wrapL_eq_map]
    exact List.mem_map_of_mem _ hx
  · exact wrap_createsN x hsat

/-- Unwrapping spans keeps some `p` among the children of a node list. -/
theorem unwrap_keeps_pChild (c : List Node) (h : c.any (isTag "p") = true) :
    (unwrapL "span" c).any (isTag "p") = true := by
  rw [List.any_eq_true] at h
  obtain ⟨x, hx, hp⟩ := h
  cases x with
  | text s => simp [isTag] at hp
  | elem t' a' c' =>
    have ht' : t' = "p" := by simpa [isTag] using hp
    subst ht'
    rw [List.any_eq_true]
    refine ⟨Node.elem "p" a' (unwrapL "span" c'), ?_, by simp [isTag]⟩
    rw [unwrapL_eq_flatMap]
    apply List.mem_flatMap.mpr
    exact ⟨_, hx, by simp [unwrapN]⟩

/-- Unwrapping spans preserves the existence of a wrapped paragraph. -/
theorem exDivP_unwrapN :
    ∀ n, anyNodeN isExDivP n = true → anyNodeL isExDivP (unwrapN "span" n) = true := by
  intro n
  induction n using node_ind with
  | ht s => intro h; simp [isExDivP, anyNodeN] at h
  | he t a c ih =>
    intro h
    rw [show anyNodeN isExDivP (Node.elem t a c) =
      (isExDivP (Node.elem t a c) || anyNodeL isExDivP c) from rfl, Bool.or_eq_true] at h
    have hchild : anyNodeL isExDivP c = true → anyNodeL isExDivP (unwrapL "span" c) = true := by
      intro hc
      rw [anyNodeL_eq_any, List.any_eq_true] at hc
      obtain ⟨x, hx, hsat⟩ := hc
      have := ih x hx hsat
      rw [anyNodeL_eq_any, List.any_eq_true] at this ⊢
      obtain ⟨y, hy, hsaty⟩ := this
      refine ⟨y, ?_, hsaty⟩
      rw [unwrapL_eq_flatMap]
      exact List.mem_flatMap.mpr ⟨x, hx, hy⟩
    rcases h with h | h
    · have ht' : t = "div" := by
        cases hd : decide (t = "div") with
        | false => simp [isExDivP, hd] at h
        | true => simpa using hd
      have hts : ¬(t = "span") := by
        rw [ht']
        decide
      simp only [unwrapN, hts, if_false]
      have hpred : isExDivP (Node.elem t a (unwrapL "span" c)) = true := by
        simp only [isExDivP, Bool.and_eq_true] at h ⊢
        exact ⟨⟨h.1.1, h.1.2⟩, unwrap_keeps_pChild c h.2⟩
      show (anyNodeN isExDivP (Node.elem t a (unwrapL "span" c)) || false) = true
      rw [show anyNodeN isExDivP (Node.elem t a (unwrapL "span" c)) =
        (isExDivP (Node.elem t a (unwrapL "span" c)) ||
          anyNodeL isExDivP (unwrapL "span" c)) from rfl, hpred]
      rfl
    · have hc := hchild h
      by_cases hts : t = "span"
      · simpa [unwrapN, hts] using hc
      · simp only [unwrapN, hts, if_false]
        show (anyNodeN isExDivP (Node.elem t a (unwrapL "span" c)) || false) = true
        rw [show anyNodeN isExDivP (Node.elem t a (unwrapL "span" c)) =
          (isExDivP (Node.elem t a (unwrapL "span" c)) ||
            anyNodeL isExDivP (unwrapL "span" c)) from rfl, hc]
        simp

theorem exDivP_unwrapL (l : List Node) (h : anyNodeL isExDivP l = true) :
    anyNodeL isExDivP (unwrapL "span" l) = true := by
  rw [anyNodeL_eq_any, List.any_eq_true] at h
  obtain ⟨x, hx, hsat⟩ := h
  have := exDivP_unwrapN x hsat
  rw [anyNodeL_eq_any, List.any_eq_true] at this ⊢
  obtain ⟨y, hy, hsaty⟩ := this
  refine ⟨y, ?_, hsaty⟩
  rw [unwrapL_eq_flatMap]
  exact List.mem_flatMap.mpr ⟨x, hx, hy⟩

/-- Removing images keeps some `p` among the children of a node list. -/
theorem filterImg_keeps_pChild (c : List Node) (h : c.any (isTag "p") = true) :
    (filterOutL isImg c).any (isTag "p") = true := by
  rw [List.any_eq_true] at h
  obtain ⟨x, hx, hp⟩ := h
  cases x with
  | text s => simp [isTag] at hp
  | elem t' a' c' =>
    have ht' : t' = "p" := by simpa [isTag] using hp
    subst ht'
    rw [List.any_eq_true]
    refine ⟨Node.elem "p" a' (filterOutL isImg c'), ?_, by simp [isTag]⟩
    rw [filterOutL_eq_flatMap]
    apply List.mem_flatMap.mpr
    refine ⟨_, hx, ?_⟩
    have : isImg (Node.elem "p" a' c') = false := by
      simp [isImg, isTag]
    simp [filterOutN, this]

/-- Removing images preserves the existence of a wrapped paragraph, provided
every `img` is childless (as an HTML parser guarantees). -/
theorem exDivP_filterImgN :
    ∀ n, anyNodeN imgNonVoid n = false → anyNodeN isExDivP n = true →
      anyNodeL isExDivP (filterOutN isImg n) = true := by
  intro n
  induction n using node_ind with
  | ht s => intro _ h; simp [isExDivP, anyNodeN] at h
  | he t a c ih =>
    intro hv h
    simp only [anyNodeN, Bool.or_eq_false_iff] at hv
    obtain ⟨hv1, hv2⟩ := hv
    have hv2' := (anyNodeL_false_iff _ c).mp hv2
    rw [show anyNodeN isExDivP (Node.elem t a c) =
      (isExDivP (Node.elem t a c) || anyNodeL isExDivP c) from rfl, Bool.or_eq_true] at h
    have hchild : anyNodeL isExDivP c = true →
        anyNodeL isExDivP (filterOutL isImg c) = true := by
      intro hc
      rw [anyNodeL_eq_any, List.any_eq_true] at hc
      obtain ⟨x, hx, hsat⟩ := hc
      have := ih x hx (by
        rw [show anyNodeN imgNonVoid x = anyNodeN imgNonVoid x from rfl]
        exact hv2' x hx) hsat
      rw [anyNodeL_eq_any, List.any_eq_true] at this ⊢
      obtain ⟨y, hy, hsaty⟩ := this
      refine ⟨y, ?_, hsaty⟩
      rw [filterOutL_eq_flatMap]
      exact List.mem_flatMap.mpr ⟨x, hx, hy⟩
    have himg : isExDivP (Node.elem t a c) = true → isImg (Node.elem t a c) = false := by
      intro hp
      have ht' : t = "div" := by
        cases hd : decide (t = "div") with
        | false => simp [isExDivP, hd] at hp
        | true => simpa using hd
      simp [isImg, isTag, ht']
    rcases h with h | h
    · simp only [filterOutN, himg h, if_false, Bool.false_eq_true]
      have hpred : isExDivP (Node.elem t a (filterOutL isImg c)) = true := by
        simp only [isExDivP, Bool.and_eq_true] at h ⊢
        exact ⟨⟨h.1.1, h.1.2⟩, filterImg_keeps_pChild c h.2⟩
      show (anyNodeN isExDivP (Node.elem t a (filterOutL isImg c)) || false) = true
      rw [show anyNodeN isExDivP (Node.elem t a (filterOutL isImg c)) =
        (isExDivP (Node.elem t a (filterOutL isImg c)) ||
          anyNodeL isExDivP (filterOutL isImg c)) from rfl, hpred]
      rfl
    · have hc := hchild h
      by_cases hp : isImg (.elem t a c) = true
      · exfalso
        have ht' : t = "img" := by simpa [isImg, isTag] using hp
        have hcE : c = [] := by
          simp only [imgNonVoid, ht', Bool.and_eq_false_iff] at hv1
          rcases hv1 with hv1 | hv1
          · simp at hv1
          · simpa using hv1
        subst hcE
        simp [anyNodeL] at h
      · simp only [filterOutN, hp, if_false, Bool.false_eq_true]
        show (anyNodeN isExDivP (Node.elem t a (filterOutL isImg c)) || false) = true
        rw [show anyNodeN isExDivP (Node.elem t a (filterOutL isImg c)) =
          (isExDivP (Node.elem t a (filterOutL isImg c)) ||
            anyNodeL isExDivP (filterOutL isImg c)) from rfl, hc]
        simp

theorem exDivP_filterImgL (l : List Node) (hv : anyNodeL imgNonVoid l = false)
    (h : anyNodeL isExDivP l = true) :
    anyNodeL isExDivP (filterOutL isImg l) = true := by
  have hv' := (anyNodeL_false_iff _ l).mp hv
  rw [anyNodeL_eq_any, List.any_eq_true] at h
  obtain ⟨x, hx, hsat⟩ := h
  have := exDivP_filterImgN x (hv' x hx) hsat
  rw [anyNodeL_eq_any, List.any_eq_true] at this ⊢
  obtain ⟨y, hy, hsaty⟩ := this
  refine ⟨y, ?_, hsaty⟩
  rw [filterOutL_eq_flatMap]
  exact List.mem_flatMap.mpr ⟨x, hx, hy⟩

theorem decVal_append_digit (a : List Char) (c : Char) :
    decVal (a ++ [c]) = 10 * decVal a + (c.toNat - 48) := by
  simp [decVal, List.foldl_append]

theorem digitChar_toNat : ∀ d, d < 10 → (Nat.digitChar d).toNat = 48 + d := by decide

theorem decVal_decDigitsAux : ∀ fuel n, n < 10 ^ fuel → decVal (decDigitsAux fuel n) = n := by
  intro fuel
  induction fuel with
  | zero =>
    intro n hn
    interval_cases n
    rfl
  | succ f ih =>
    intro n hn
    by_cases h10 : n < 10
    · simp only [decDigitsAux, h10, if_true]
      rw [show decVal [Nat.digitChar n] = 10 * decVal [] + ((Nat.digitChar n).toNat - 48) from by
        rw [← decVal_append_digit]
        rfl]
      rw [digitChar_toNat n h10]
      simp [decVal]
    · simp only [decDigitsAux, h10, if_false]
      rw [decVal_append_digit]
      have hdiv : n / 10 < 10 ^ f := by
        apply Nat.div_lt_of_lt_mul
        rw [← pow_succ']
        exact hn
      rw [ih (n / 10) hdiv, digitChar_toNat (n % 10) (Nat.mod_lt n (by omega))]
      omega

theorem lt_ten_pow (n : Nat) : n < 10 ^ (n + 1) :=
  calc n < 2 ^ n := Nat.lt_two_pow n
    _ ≤ 10 ^ n := Nat.pow_le_pow_left (by norm_num) n
    _ ≤ 10 ^ (n + 1) := Nat.pow_le_pow_right (by norm_num) (by omega)

theorem decVal_decDigits (n : Nat) : decVal (decDigits n) = n :=
  decVal_decDigitsAux (n + 1) n (lt_ten_pow n)

theorem natToDec_data (n : Nat) : (natToDec n).data = decDigits n := rfl

/-- Distinct indices give distinct artifact names. -/
theorem mkName_inj (base : String) {m n : Nat} (h : mkName base m = mkName base n) :
    m = n := by
  have hd := congrArg String.data h
  simp only [mkName, String.data_append, natToDec_data, List.append_assoc] at hd
  have h1 := List.append_cancel_left hd
  have h2 := List.append_cancel_left h1
  have h3 := List.append_cancel_right h2
  have h4 := congrArg decVal h3
  rwa [decVal_decDigits, decVal_decDigits] at h4

/-- In any finite directory some index in `1 .. length + 1` is free. -/
theorem exists_free (base : String) (ns : List String) :
    ∃ j, 1 ≤ j ∧ j ≤ ns.length + 1 ∧ mkName base j ∉ ns := by
  by_contra hcon
  push_neg at hcon
  have hsub : ((List.range (ns.length + 1)).map (fun k => mkName base (k + 1))) ⊆ ns := by
    intro s hs
    obtain ⟨k, hk, rfl⟩ := List.mem_map.mp hs
    have hk' := List.mem_range.mp hk
    exact hcon (k + 1) (by omega) (by omega)
  have hinj : Function.Injective (fun k => mkName base (k + 1)) := by
    intro x y hxy
    have := mkName_inj base hxy
    omega
  have hnd := (List.nodup_range (ns.length + 1)).map hinj
  have hle := (List.Nodup.subperm hnd hsub).length_le
  simp only [List.length_map, List.length_range] at hle
  omega

/-- What the probe loop returns when a free index is within fuel reach: the
first free index at or above the start. -/
theorem smallestFreeAux_spec (base : String) (ns : List String) :
    ∀ fuel i, (∃ j, i ≤ j ∧ j < i + fuel ∧ mkName base j ∉ ns) →
      (mkName base (smallestFreeAux base ns fuel i) ∉ ns ∧
       i ≤ smallestFreeAux base ns fuel i ∧
       ∀ m, i ≤ m → m < smallestFreeAux base ns fuel i → mkName base m ∈ ns) := by
  intro fuel
  induction fuel with
  | zero =>
    intro i hex
    obtain ⟨j, hj1, hj2, _⟩ := hex
    omega
  | succ f ih =>
    intro i hex
    by_cases hc : ns.contains (mkName base i) = true
    · have hmem : mkName base i ∈ ns := by simpa using hc
      have hex' : ∃ j, i + 1 ≤ j ∧ j < (i + 1) + f ∧ mkName base j ∉ ns := by
        obtain ⟨j, hj1, hj2, hj3⟩ := hex
        refine ⟨j, ?_, by omega, hj3⟩
        rcases Nat.eq_or_lt_of_le hj1 with h | h
        · exfalso
          rw [h] at hmem
          exact hj3 hmem
        · omega
      have hspec := ih (i + 1) hex'
      rw [show smallestFreeAux base ns (f + 1) i = smallestFreeAux base ns f (i + 1) from by
        simp only [smallestFreeAux]
        rw [if_pos hc]]
      refine ⟨hspec.1, by omega, ?_⟩
      intro m hm1 hm2
      rcases Nat.eq_or_lt_of_le hm1 with h | h
      · rw [← h]
        exact hmem
      · exact hspec.2.2 m (by omega) hm2
    · rw [show smallestFreeAux base ns (f + 1) i = i from by
        simp only [smallestFreeAux]
        rw [if_neg hc]]
      refine ⟨by simpa using hc, le_refl i, ?_⟩
      intro m hm1 hm2
      omega

/-- The source's probe loop picks the smallest positive free index: its name
is unused and every smaller positive index is taken. -/
theorem smallestFree_spec (base : String) (ns : List String) :
    mkName base (smallestFree base ns) ∉ ns ∧ 1 ≤ smallestFree base ns ∧
      ∀ m, 1 ≤ m → m < smallestFree base ns → mkName base m ∈ ns := by
  obtain ⟨j, hj1, hj2, hj3⟩ := exists_free base ns
  exact smallestFreeAux_spec base ns (ns.length + 1) 1 ⟨j, hj1, by omega, hj3⟩

theorem getApp {α : Type} (a b : List α) (e : α) : (a ++ e :: b)[a.length]? = some e := by
  induction a with
  | nil => simp
  | cons x xs ih => simpa using ih

theorem sep_appends (q : HTMLProcessor) (o1 : OutDir) :
    ∃ r, (separate_all_tables q o1).2 = o1 ++ r := by
  by_cases h : (tablesL (clean_empty_tables q.file)).isEmpty = true
  · refine ⟨[], ?_⟩
    simp [separate_all_tables, h]
  · refine ⟨[(generate_unique_file_path "tables" o1,
      get_tables_content (tablesL (clean_empty_tables q.file)))], ?_⟩
    simp [separate_all_tables, h]

theorem sep_content_frame (q : HTMLProcessor) (o1 : OutDir) :
    (separate_all_tables q o1).1.content_html = q.content_html := by
  by_cases h : (tablesL (clean_empty_tables q.file)).isEmpty = true <;>
    simp [separate_all_tables, h]

/-- After `separate_all_tables` the main tree hosts no table, so a subsequent
`remove_all_tables` is a no-op. -/
theorem sep_no_tables (q : HTMLProcessor) (o1 : OutDir) :
    remove_all_tables ((separate_all_tables q o1).1.file) =
      (separate_all_tables q o1).1.file := by
  by_cases h : (tablesL (clean_empty_tables q.file)).isEmpty = true
  · have hnil : tablesL (clean_empty_tables q.file) = [] := by
      simpa [List.isEmpty_iff] using h
    have hno : anyNodeL isTable (clean_empty_tables q.file) = false :=
      (tablesL_nil_iff _).mp hnil
    simp only [separate_all_tables, h, if_true]
    exact filterOutL_id_of_no isTable _ hno
  · simp only [separate_all_tables, h, if_false, Bool.false_eq_true]
    exact filterOutL_id_of_no isTable _ (filterOut_no_tagL "table" isTable (fun _ hh => hh) _)

theorem process_appends (o : ProcessOptions) (p : HTMLProcessor) (out : OutDir) :
    ∃ rest, (process o p out).2 = out ++ rest := by
  obtain ⟨rt, st, sc, wi⟩ := o
  cases sc <;> cases st <;> cases rt <;>
    simp only [process, save_only_content, save_processed_file, if_true, if_false,
      Bool.false_eq_true]
  · exact ⟨_, rfl⟩
  · exact ⟨_, rfl⟩
  · obtain ⟨r1, hr1⟩ := sep_appends
      {p with file := clean ⟨true, true, true, true, wi⟩ p.file} out
    rw [hr1]
    exact ⟨_, (List.append_assoc _ _ _)⟩
  · obtain ⟨r1, hr1⟩ := sep_appends
      {p with file := clean ⟨true, true, true, true, wi⟩ p.file} out
    rw [hr1]
    exact ⟨_, (List.append_assoc _ _ _)⟩
  · exact ⟨_, (List.append_assoc _ _ _)⟩
  · exact ⟨_, (List.append_assoc _ _ _)⟩
  · obtain ⟨r1, hr1⟩ := sep_appends
      {p with file := clean ⟨true, true, true, true, wi⟩ p.file}
      (out ++ [(generate_unique_file_path "content" out, p.content_html)])
    rw [hr1, List.append_assoc]
    exact ⟨_, (List.append_assoc _ _ _)⟩
  · obtain ⟨r1, hr1⟩ := sep_appends
      {p with file := clean ⟨true, true, true, true, wi⟩ p.file}
      (out ++ [(generate_unique_file_path "content" out, p.content_html)])
    rw [hr1, List.append_assoc]
    exact ⟨_, (List.append_assoc _ _ _)⟩

/-- C1 (amended): `Cleaner.clean` applies exactly five individually
toggleable rules (default enabled) in the fixed, non-reorderable order
lang-attribute removal → empty-table removal → image-wrap → span-unwrap →
image removal, for every input tree and every combination of enabled flags;
the div-unwrap, empty-colgroup, class/id, answer-paragraph and empty-tag
rules of the frozen claim are not part of this pipeline. -/
theorem C1_pipeline_order (f : CleanFlags) (d : Doc) :
    clean f d = specFiveRulePipeline f d := rfl

/-- C1 as frozen is false: on a document holding one `div` with a class
attribute the code pipeline (all rules enabled) is the identity, while the
claimed ten-rule pipeline — whose first, default-enabled rule unwraps every
`div` and whose fifth strips every class — rewrites it. -/
theorem C1_counterexample :
    clean defaultFlags [Node.elem "div" [("class", "x")] [Node.text "hello"]] =
      [Node.elem "div" [("class", "x")] [Node.text "hello"]] ∧
    specTenRulePipeline [Node.elem "div" [("class", "x")] [Node.text "hello"]] =
      [Node.text "hello"] ∧
    clean defaultFlags [Node.elem "div" [("class", "x")] [Node.text "hello"]] ≠
      specTenRulePipeline [Node.elem "div" [("class", "x")] [Node.text "hello"]] := by
  refine ⟨rfl, rfl, ?_⟩
  rw [show clean defaultFlags [Node.elem "div" [("class", "x")] [Node.text "hello"]] =
    [Node.elem "div" [("class", "x")] [Node.text "hello"]] from rfl]
  rw [show specTenRulePipeline [Node.elem "div" [("class", "x")] [Node.text "hello"]] =
    [Node.text "hello"] from rfl]
  intro h
  simp at h

/-- C2 (amended): lang-attribute removal, span unwrap, image removal and
empty-table removal are idempotent; the paragraph-with-image wrap is not (see
the counterexample — it wraps again on each run while the image is present);
and the whole default pipeline is idempotent on every tree whose `img`
elements are childless, as the HTML parser produces them. -/
theorem C2_idempotence (d : Doc) :
    remove_lang_attributes (remove_lang_attributes d) = remove_lang_attributes d ∧
    remove_spans_tags (remove_spans_tags d) = remove_spans_tags d ∧
    remove_imgs_tags (remove_imgs_tags d) = remove_imgs_tags d ∧
    clean_empty_tables (clean_empty_tables d) = clean_empty_tables d ∧
    (anyNodeL imgNonVoid d = false →
      clean defaultFlags (clean defaultFlags d) = clean defaultFlags d) :=
  ⟨remove_lang_idem d, remove_spans_idem d, remove_imgs_idem d,
    clean_empty_tables_idem d, clean_default_idem d⟩

theorem C2_idempotence_witness :
    anyNodeL imgNonVoid [Node.elem "p" [] [Node.elem "img" [] []]] = false ∧
    clean defaultFlags (clean defaultFlags [Node.elem "p" [] [Node.elem "img" [] []]]) =
      clean defaultFlags [Node.elem "p" [] [Node.elem "img" [] []]] :=
  ⟨rfl, (C2_idempotence [Node.elem "p" [] [Node.elem "img" [] []]]).2.2.2.2 rfl⟩

/-- C2 as frozen is false: applying `wrap_paragraph_with_div` twice to
`<p><img/></p>` double-wraps the paragraph, so the serialized results of one
and two applications differ. -/
theorem C2_counterexample :
    serializeL (wrap_paragraph_with_div (wrap_paragraph_with_div
      [Node.elem "p" [] [Node.elem "img" [] []]])) ≠
    serializeL (wrap_paragraph_with_div [Node.elem "p" [] [Node.elem "img" [] []]]) := by
  rw [show serializeL (wrap_paragraph_with_div (wrap_paragraph_with_div
      [Node.elem "p" [] [Node.elem "img" [] []]])) =
    "<div class=\x22exercise\x22><div class=\x22exercise\x22><p><img></img></p></div></div>"
    from rfl]
  rw [show serializeL (wrap_paragraph_with_div [Node.elem "p" [] [Node.elem "img" [] []]]) =
    "<div class=\x22exercise\x22><p><img></img></p></div>" from rfl]
  decide

/-- C4: `clean_empty_tables` deletes a table exactly when no descendant has
non-whitespace text — the surviving-table count equals the count of tables
with real text, every survivor has real text, the all-empty-cells table is
removed and the one-character table is retained. -/
theorem C4_empty_tables (d : Doc) :
    (tablesL (clean_empty_tables d)).length =
      (tablesL d).countP (fun m => !(allWs (textN m))) ∧
    (tablesL (clean_empty_tables d)).all (fun m => !(allWs (textN m))) = true ∧
    clean_empty_tables [Node.elem "table" [] [Node.elem "tr" [] [Node.elem "td" [] []]]] =
      [] ∧
    clean_empty_tables [Node.elem "table" [] [Node.elem "tr" [] [Node.elem "td" []
      [Node.text "x"]]]] = [Node.elem "table" [] [Node.elem "tr" [] [Node.elem "td" []
      [Node.text "x"]]]] :=
  ⟨countTblL d, survTblWsL d, rfl, rfl⟩

/-- C5: every artifact category picks the smallest positive index whose name
is absent from the output directory at the moment of the write, so nothing is
overwritten; an empty directory yields `file-1.html`, a directory holding
`file-1.html` and `file-2.html` yields `file-3.html`, and every `process`
call only ever appends to the directory. -/
theorem C5_unique_naming (base : String) (out : OutDir) :
    (generate_unique_file_path base out ∉ outNames out ∧
     1 ≤ smallestFree base (outNames out) ∧
     ∀ m, 1 ≤ m → m < smallestFree base (outNames out) → mkName base m ∈ outNames out) ∧
    generate_unique_file_path "file" [] = "file-1.html" ∧
    generate_unique_file_path "file" [("file-1.html", "a"), ("file-2.html", "b")] =
      "file-3.html" ∧
    (∀ (o : ProcessOptions) (p : HTMLProcessor), ∃ rest, (process o p out).2 = out ++ rest) := by
  refine ⟨⟨(smallestFree_spec base (outNames out)).1,
    (smallestFree_spec base (outNames out)).2.1,
    (smallestFree_spec base (outNames out)).2.2⟩, by decide, by decide,
    fun o p => process_appends o p out⟩

theorem C5_unique_naming_witness :
    generate_unique_file_path "file" [("file-1.html", "a"), ("file-2.html", "b")] ∉
      outNames [("file-1.html", "a"), ("file-2.html", "b")] ∧
    mkName "file" 2 ∈ outNames [("file-1.html", "a"), ("file-2.html", "b")] := by
  refine ⟨(C5_unique_naming "file" [("file-1.html", "a"), ("file-2.html", "b")]).1.1, ?_⟩
  exact (C5_unique_naming "file" [("file-1.html", "a"), ("file-2.html", "b")]).1.2.2 2
    (by decide) (by decide)

/-- C3 (amended): on a tree whose `img` elements are childless and in which
some `p` with an `img` descendant survives the empty-table pre-pass, the full
pipeline with image-wrap enabled leaves a `div class="exercise"` wrapping a
`p` and no `img` anywhere; with image-wrap disabled (image removal still on)
it creates no exercise wrapper — none appears unless the input already held
one — and also leaves no `img`. -/
theorem C3_wrap_toggle (d : Doc)
    (hv : anyNodeL imgNonVoid d = false)
    (hp : anyNodeL isPImg (clean_empty_tables d) = true) :
    (anyNodeL isExDivP (clean defaultFlags d) = true ∧
     anyNodeL (isTag "img") (clean defaultFlags d) = false) ∧
    (anyNodeL isExDiv d = false →
      anyNodeL isExDiv (clean ⟨true, true, true, true, false⟩ d) = false) ∧
    anyNodeL (isTag "img") (clean ⟨true, true, true, true, false⟩ d) = false := by
  have hcomm : clean_empty_tables (remove_lang_attributes d) =
      remove_lang_attributes (clean_empty_tables d) := filterET_delAttr_commL "lang" d
  have h1 : anyNodeL isPImg (clean_empty_tables (remove_lang_attributes d)) = true := by
    rw [hcomm]
    rw [show anyNodeL isPImg (remove_lang_attributes (clean_empty_tables d)) =
      anyNodeL isPImg (clean_empty_tables d) from delAttr_pImgL "lang" _]
    exact hp
  have h2 : anyNodeL isExDivP (wrap_paragraph_with_div (clean_empty_tables
      (remove_lang_attributes d))) = true := wrap_createsL _ h1
  have h3 : anyNodeL isExDivP (remove_spans_tags (wrap_paragraph_with_div
      (clean_empty_tables (remove_lang_attributes d)))) = true := exDivP_unwrapL _ h2
  have hv2 : anyNodeL imgNonVoid (clean_empty_tables (remove_lang_attributes d)) = false :=
    imgVoid_filterOutL _ _ (imgVoid_delAttrL _ _ hv)
  have hv4 : anyNodeL imgNonVoid (remove_spans_tags (wrap_paragraph_with_div
      (clean_empty_tables (remove_lang_attributes d)))) = false :=
    imgVoid_unwrapL _ _ (imgVoid_wrapL _ hv2)
  have h4 : anyNodeL isExDivP (clean defaultFlags d) = true := by
    rw [clean_default_unfold]
    exact exDivP_filterImgL _ hv4 h3
  have h5 : anyNodeL (isTag "img") (clean defaultFlags d) = false := by
    rw [clean_default_unfold]
    exact filterOut_no_tagL "img" isImg (fun _ h => h) _
  have h6 : anyNodeL isExDiv d = false →
      anyNodeL isExDiv (clean ⟨true, true, true, true, false⟩ d) = false := by
    intro hE
    rw [clean_nowrap_unfold]
    exact localFalse_filterOutL _ isImg isExDiv_local _
      (localFalse_unwrapL _ "span" isExDiv_local _
        (localFalse_filterOutL _ isEmptyTable isExDiv_local _
          (delAttr_exDivL "lang" d hE)))
  have h7 : anyNodeL (isTag "img") (clean ⟨true, true, true, true, false⟩ d) = false := by
    rw [clean_nowrap_unfold]
    exact filterOut_no_tagL "img" isImg (fun _ h => h) _
  exact ⟨⟨h4, h5⟩, h6, h7⟩

theorem C3_wrap_toggle_witness :
    (anyNodeL imgNonVoid [Node.elem "p" [] [Node.elem "img" [] []]] = false ∧
     anyNodeL isPImg (clean_empty_tables [Node.elem "p" [] [Node.elem "img" [] []]]) = true) ∧
    anyNodeL isExDivP (clean defaultFlags [Node.elem "p" [] [Node.elem "img" [] []]]) = true ∧
    anyNodeL isExDiv [Node.elem "p" [] [Node.elem "img" [] []]] = false ∧
    anyNodeL isExDiv (clean ⟨true, true, true, true, false⟩
      [Node.elem "p" [] [Node.elem "img" [] []]]) = false :=
  ⟨⟨rfl, rfl⟩,
    (C3_wrap_toggle [Node.elem "p" [] [Node.elem "img" [] []]] rfl rfl).1.1, rfl,
    (C3_wrap_toggle [Node.elem "p" [] [Node.elem "img" [] []]] rfl rfl).2.1 rfl⟩

/-- C3 as frozen is false on three concrete trees: a `p`-with-`img` inside a
whitespace-only table is deleted by the empty-table pass before wrapping, so
the wrap-enabled run yields no exercise wrapper; a pre-existing exercise
wrapper survives a wrap-disabled run, so that run does not yield "no such
wrapper"; and a `p`-with-`img` inside a non-void `img` is deleted together
with its wrapper by image removal. -/
theorem C3_counterexample :
    (anyNodeL isPImg [Node.elem "table" [] [Node.elem "tr" [] [Node.elem "td" []
        [Node.elem "p" [] [Node.elem "img" [] []]]]]] = true ∧
     anyNodeL isExDiv (clean defaultFlags [Node.elem "table" [] [Node.elem "tr" []
        [Node.elem "td" [] [Node.elem "p" [] [Node.elem "img" [] []]]]]]) = false) ∧
    (anyNodeL isPImg [Node.elem "div" [("class", "exercise")] [Node.elem "p" []
        [Node.text "x"]], Node.elem "p" [] [Node.elem "img" [] []]] = true ∧
     anyNodeL isExDiv (clean ⟨true, true, true, true, false⟩
        [Node.elem "div" [("class", "exercise")] [Node.elem "p" [] [Node.text "x"]],
         Node.elem "p" [] [Node.elem "img" [] []]]) = true) ∧
    (anyNodeL isPImg [Node.elem "img" [] [Node.elem "p" [] [Node.elem "img" [] []]]] = true ∧
     anyNodeL isExDiv (clean defaultFlags
        [Node.elem "img" [] [Node.elem "p" [] [Node.elem "img" [] []]]]) = false) :=
  ⟨⟨rfl, rfl⟩, ⟨rfl, rfl⟩, ⟨rfl, rfl⟩⟩

/-- C6: `process` runs the pipeline with `wrap_images` forwarded, then the
content save, then table separation, else table removal, then the primary
artifact — observationally identical to the spec's orchestration with its
mutually exclusive `else if` (when both table flags are set, the removal
after separation is a no-op because separation already removed every
table). -/
theorem C6_process_order (o : ProcessOptions) (p : HTMLProcessor) (out : OutDir) :
    process o p out = processSpec o p out := by
  by_cases hst : o.separate_tables = true
  · by_cases hrt : o.remove_tables = true
    · simp only [process, processSpec, hst, hrt, if_true]
      rw [sep_no_tables]
    · simp only [process, processSpec, hst, hrt, if_true, if_false, Bool.false_eq_true]
  · by_cases hrt : o.remove_tables = true
    · simp only [process, processSpec, hst, hrt, if_true, if_false, Bool.false_eq_true]
    · simp only [process, processSpec, hst, hrt, if_false, Bool.false_eq_true]

/-- C7: table separation serializes the tables surviving the empty-table
pre-pass in document order, joins them with a newline, and persists that as
the `tables` artifact exactly when at least one table with real text exists;
afterwards the main tree holds no table at all. -/
theorem C7_table_separation (p : HTMLProcessor) (out : OutDir) :
    ((tablesL p.file).countP (fun m => !(allWs (textN m))) ≠ 0 →
      (separate_all_tables p out).2 = out ++
        [(generate_unique_file_path "tables" out,
          String.intercalate "\n" ((tablesL (clean_empty_tables p.file)).map serializeN))] ∧
      tablesL ((separate_all_tables p out).1.file) = [] ∧
      (tablesL (clean_empty_tables p.file)).all (fun m => !(allWs (textN m))) = true) ∧
    ((tablesL p.file).countP (fun m => !(allWs (textN m))) = 0 →
      (separate_all_tables p out).2 = out) := by
  have hlen := countTblL p.file
  constructor
  · intro hne
    have hpos : 0 < (tablesL (clean_empty_tables p.file)).length := by
      show 0 < (tablesL (filterOutL isEmptyTable p.file)).length
      rw [hlen]
      omega
    have hts : (tablesL (clean_empty_tables p.file)).isEmpty = false := by
      rw [List.isEmpty_eq_false_iff_exists_mem]
      exact List.exists_mem_of_length_pos hpos
    have hnoTab : anyNodeL isTable (remove_all_tables (clean_empty_tables p.file)) = false :=
      filterOut_no_tagL "table" isTable (fun _ h => h) _
    refine ⟨?_, ?_, survTblWsL p.file⟩
    · simp only [separate_all_tables, hts, Bool.false_eq_true, if_false,
        get_tables_content]
    · simp only [separate_all_tables, hts, Bool.false_eq_true, if_false]
      exact (tablesL_nil_iff _).mpr hnoTab
  · intro hz
    have hts : (tablesL (clean_empty_tables p.file)).isEmpty = true := by
      rw [List.isEmpty_iff, ← List.length_eq_zero]
      show (tablesL (filterOutL isEmptyTable p.file)).length = 0
      rw [hlen]
      exact hz
    simp [separate_all_tables, hts]

theorem C7_table_separation_witness :
    (tablesL [Node.elem "table" [] [Node.elem "tr" [] [Node.elem "td" [] []]],
      Node.elem "table" [] [Node.elem "tr" [] [Node.elem "td" [] [Node.text "x"]]]]).countP
        (fun m => !(allWs (textN m))) ≠ 0 ∧
    (separate_all_tables ⟨[Node.elem "table" [] [Node.elem "tr" [] [Node.elem "td" [] []]],
      Node.elem "table" [] [Node.elem "tr" [] [Node.elem "td" [] [Node.text "x"]]]], "c"⟩
      []).2 = [] ++ [(generate_unique_file_path "tables" [],
        String.intercalate "\n" ((tablesL (clean_empty_tables
          [Node.elem "table" [] [Node.elem "tr" [] [Node.elem "td" [] []]],
           Node.elem "table" [] [Node.elem "tr" [] [Node.elem "td" []
             [Node.text "x"]]]])).map serializeN))] ∧
    tablesL ((separate_all_tables ⟨[Node.elem "table" [] [Node.elem "tr" []
      [Node.elem "td" [] []]], Node.elem "table" [] [Node.elem "tr" [] [Node.elem "td" []
      [Node.text "x"]]]], "c"⟩ []).1.file) = [] := by
  refine ⟨by decide, ?_, ?_⟩
  · exact ((C7_table_separation ⟨[Node.elem "table" [] [Node.elem "tr" []
      [Node.elem "td" [] []]], Node.elem "table" [] [Node.elem "tr" [] [Node.elem "td" []
      [Node.text "x"]]]], "c"⟩ []).1 (by decide)).1
  · exact ((C7_table_separation ⟨[Node.elem "table" [] [Node.elem "tr" []
      [Node.elem "td" [] []]], Node.elem "table" [] [Node.elem "tr" [] [Node.elem "td" []
      [Node.text "x"]]]], "c"⟩ []).1 (by decide)).2.1

/-- C8: construction fails with the not-found error when the path is absent,
with the invalid-format error when the lowercased extension is not `.html`,
and with the extraction-failed error when the extractor yields nothing from
the raw bytes; in every such case the run writes no output file. -/
theorem C8_construction_failures (C : Collaborators) (fs : InputFS) (path : String)
    (o : ProcessOptions) (out : OutDir) :
    (readFile fs path = none →
      construct C fs path = .error .notFound ∧
      runTool C fs path o out = (.error .notFound, out)) ∧
    (∀ raw, readFile fs path = some raw → strLower (pathSuffix path) ≠ ".html" →
      construct C fs path = .error .invalidFormat ∧
      runTool C fs path o out = (.error .invalidFormat, out)) ∧
    (∀ raw, readFile fs path = some raw → strLower (pathSuffix path) = ".html" →
      (C.parse raw).isEmpty = false → C.extract raw = none →
      construct C fs path = .error .extractionFailed ∧
      runTool C fs path o out = (.error .extractionFailed, out)) := by
  refine ⟨?_, ?_, ?_⟩
  · intro h
    have hc : construct C fs path = .error .notFound := by
      simp [construct, h]
    exact ⟨hc, by simp [runTool, hc]⟩
  · intro raw h hs
    have hc : construct C fs path = .error .invalidFormat := by
      simp only [construct, h]
      rw [if_pos hs]
    exact ⟨hc, by simp [runTool, hc]⟩
  · intro raw h hs hp he
    have hc : construct C fs path = .error .extractionFailed := by
      simp only [construct, h]
      rw [if_neg (by simp [hs])]
      simp [hp, he]
    exact ⟨hc, by simp [runTool, hc]⟩

theorem C8_construction_failures_witness :
    construct ⟨fun _ => [Node.text "x"], fun _ => none⟩ [("a.html", "raw")] "missing.html" =
      .error .notFound ∧
    construct ⟨fun _ => [Node.text "x"], fun _ => none⟩ [("b.txt", "raw")] "b.txt" =
      .error .invalidFormat ∧
    construct ⟨fun _ => [Node.text "x"], fun _ => none⟩ [("a.html", "raw")] "a.html" =
      .error .extractionFailed ∧
    runTool ⟨fun _ => [Node.text "x"], fun _ => none⟩ [("a.html", "raw")] "a.html"
      ⟨false, false, false, true⟩ [] = (.error .extractionFailed, []) := by
  refine ⟨?_, ?_, ?_, ?_⟩
  · exact ((C8_construction_failures ⟨fun _ => [Node.text "x"], fun _ => none⟩
      [("a.html", "raw")] "missing.html" ⟨false, false, false, true⟩ []).1 (by decide)).1
  · exact ((C8_construction_failures ⟨fun _ => [Node.text "x"], fun _ => none⟩
      [("b.txt", "raw")] "b.txt" ⟨false, false, false, true⟩ []).2.1 "raw" (by decide)
      (by decide)).1
  · exact ((C8_construction_failures ⟨fun _ => [Node.text "x"], fun _ => none⟩
      [("a.html", "raw")] "a.html" ⟨false, false, false, true⟩ []).2.2 "raw" (by decide)
      (by decide) (by decide) rfl).1
  · exact ((C8_construction_failures ⟨fun _ => [Node.text "x"], fun _ => none⟩
      [("a.html", "raw")] "a.html" ⟨false, false, false, true⟩ []).2.2 "raw" (by decide)
      (by decide) (by decide) rfl).2

/-- C9: the extracted content is fixed at construction — it is exactly what
the extractor returned on the original raw bytes — and no later processing
step (pipeline, table separation, table removal) changes it; both
`save_only_content` and the `separate_content` branch of `process` persist
precisely that string. -/
theorem C9_content_immutable (C : Collaborators) (fs : InputFS) (path raw : String)
    (p : HTMLProcessor) (o : ProcessOptions) (out : OutDir)
    (hread : readFile fs path = some raw)
    (hok : construct C fs path = .ok p) :
    C.extract raw = some p.content_html ∧
    (process o p out).1.content_html = p.content_html ∧
    (separate_all_tables p out).1.content_html = p.content_html ∧
    save_only_content p out = out ++
      [(generate_unique_file_path "content" out, p.content_html)] ∧
    (o.separate_content = true →
      (process o p out).2[out.length]? =
        some (generate_unique_file_path "content" out, p.content_html)) := by
  have hext : C.extract raw = some p.content_html := by
    simp only [construct, hread] at hok
    by_cases hs : strLower (pathSuffix path) ≠ ".html"
    · rw [if_pos hs] at hok
      exact absurd hok (by simp)
    · rw [if_neg hs] at hok
      by_cases hpe : (C.parse raw).isEmpty = true
      · simp [hpe] at hok
      · have hpe' : (C.parse raw).isEmpty = false := Bool.eq_false_iff.mpr hpe
        simp only [hpe', Bool.false_eq_true, if_false] at hok
        cases hce : C.extract raw with
        | none =>
          rw [hce] at hok
          simp at hok
        | some s =>
          rw [hce] at hok
          simp only [Except.ok.injEq] at hok
          rw [← hok]
  have hframe : (process o p out).1.content_html = p.content_html := by
    obtain ⟨rt, st, sc, wi⟩ := o
    cases rt <;> cases st <;> simp [process, sep_content_frame]
  have hidx : o.separate_content = true →
      (process o p out).2[out.length]? =
        some (generate_unique_file_path "content" out, p.content_html) := by
    intro hsc
    obtain ⟨rt, st, sc, wi⟩ := o
    simp only at hsc
    subst hsc
    cases st
    · cases rt <;>
      · simp only [process, save_only_content, save_processed_file, if_true, if_false,
          Bool.false_eq_true]
        rw [List.append_assoc]
        exact getApp _ _ _
    · cases rt <;>
      · simp only [process, save_only_content, save_processed_file, if_true, if_false,
          Bool.false_eq_true]
        obtain ⟨r1, hr1⟩ := sep_appends
          {p with file := clean ⟨true, true, true, true, wi⟩ p.file}
          (out ++ [(generate_unique_file_path "content" out, p.content_html)])
        rw [hr1, List.append_assoc, List.append_assoc]
        exact getApp _ _ _
  exact ⟨hext, hframe, sep_content_frame p out, rfl, hidx⟩

theorem C9_content_immutable_witness :
    readFile [("a.html", "raw")] "a.html" = some "raw" ∧
    construct ⟨fun _ => [Node.text "y"], fun _ => some "EXTRACTED"⟩ [("a.html", "raw")]
      "a.html" = .ok ⟨[Node.text "y"], "EXTRACTED"⟩ ∧
    (⟨fun _ => [Node.text "y"], fun _ => some "EXTRACTED"⟩ : Collaborators).extract "raw" =
      some ((⟨[Node.text "y"], "EXTRACTED"⟩ : HTMLProcessor).content_html) ∧
    (process ⟨false, false, true, true⟩ ⟨[Node.text "y"], "EXTRACTED"⟩ []).1.content_html =
      (⟨[Node.text "y"], "EXTRACTED"⟩ : HTMLProcessor).content_html := by
  refine ⟨rfl, rfl, ?_, ?_⟩
  · exact (C9_content_immutable ⟨fun _ => [Node.text "y"], fun _ => some "EXTRACTED"⟩
      [("a.html", "raw")] "a.html" "raw" ⟨[Node.text "y"], "EXTRACTED"⟩
      ⟨false, false, true, true⟩ [] rfl rfl).1
  · exact (C9_content_immutable ⟨fun _ => [Node.text "y"], fun _ => some "EXTRACTED"⟩
      [("a.html", "raw")] "a.html" "raw" ⟨[Node.text "y"], "EXTRACTED"⟩
      ⟨false, false, true, true⟩ [] rfl rfl).2.1

/-- C10: the extension check of construction is case-insensitive — for an
existing file the invalid-format error arises exactly when the lowercased
suffix differs from `.html` (so `.HTML` and `.Html` pass) — and the
existence check runs first, so a missing path yields the not-found error even
with a non-HTML extension. -/
theorem C10_extension_check (C : Collaborators) (fs : InputFS) (path : String) :
    (readFile fs path = none → construct C fs path = .error .notFound) ∧
    (∀ raw, readFile fs path = some raw →
      ((construct C fs path = .error .invalidFormat) ↔
        strLower (pathSuffix path) ≠ ".html")) := by
  constructor
  · intro h
    simp [construct, h]
  · intro raw h
    constructor
    · intro hc
      by_contra hs
      have hs' : strLower (pathSuffix path) = ".html" := hs
      simp only [construct, h] at hc
      rw [if_neg (by simp [hs'])] at hc
      by_cases hpe : (C.parse raw).isEmpty = true
      · simp [hpe] at hc
      · have hpe' : (C.parse raw).isEmpty = false := Bool.eq_false_iff.mpr hpe
        simp only [hpe', Bool.false_eq_true, if_false] at hc
        cases hce : C.extract raw with
        | none =>
          rw [hce] at hc
          simp at hc
        | some s =>
          rw [hce] at hc
          simp at hc
    · intro hs
      simp only [construct, h]
      rw [if_pos hs]

theorem C10_extension_check_witness :
    construct ⟨fun _ => [Node.text "x"], fun _ => none⟩ [("a.HTML", "r")] "a.HTML" ≠
      .error .invalidFormat ∧
    construct ⟨fun _ => [Node.text "x"], fun _ => none⟩ [("b.Html", "r")] "b.Html" ≠
      .error .invalidFormat ∧
    construct ⟨fun _ => [Node.text "x"], fun _ => none⟩ [("a.HTML", "r")] "c.txt" =
      .error .notFound := by
  refine ⟨?_, ?_, ?_⟩
  · intro hcon
    have hne := ((C10_extension_check ⟨fun _ => [Node.text "x"], fun _ => none⟩
      [("a.HTML", "r")] "a.HTML").2 "r" (by decide)).mp hcon
    exact hne (by decide)
  · intro hcon
    have hne := ((C10_extension_check ⟨fun _ => [Node.text "x"], fun _ => none⟩
      [("b.Html", "r")] "b.Html").2 "r" (by decide)).mp hcon
    exact hne (by decide)
  · exact (C10_extension_check ⟨fun _ => [Node.text "x"], fun _ => none⟩
      [("a.HTML", "r")] "c.txt").1 (by decide)
